import Mathlib

/-
Verification of the caching HTTP forward proxy (src/main.rs, src/db.rs).

Shallow embedding conventions:
* Strings are Lean `String`/`List Char`; bytes are `List Nat`.
* SQLite timestamps (`last_update`, `CURRENT_TIMESTAMP`) are modelled as `Int`
  seconds; the SQL comparison `last_update > datetime(CURRENT_TIMESTAMP,
  '-ttl seconds')` becomes `now - ttl < last_update`.
* External collaborators (serde_json, the url crate, actix header maps,
  SQLite) are modelled by executable Lean functions restricted to the value
  shapes this program feeds them; each definition documents the restriction.
-/

/-! ## JSON layer: serde_json serialization of `HashMap<String, Vec<String>>`
(`HttpHeaders` ToSql/FromSql in src/db.rs). -/

def dquoteChar : Char := Char.ofNat 34

def bslashChar : Char := Char.ofNat 92

def lbraceChar : Char := Char.ofNat 123

def rbraceChar : Char := Char.ofNat 125

def hexDig (n : Nat) : Char := if n < 10 then Char.ofNat (48 + n) else Char.ofNat (87 + n)

def hexVal (c : Char) : Option Nat :=
  if 48 ≤ c.toNat ∧ c.toNat ≤ 57 then some (c.toNat - 48)
  else if 97 ≤ c.toNat ∧ c.toNat ≤ 102 then some (c.toNat - 87)
  else if 65 ≤ c.toNat ∧ c.toNat ≤ 70 then some (c.toNat - 55)
  else none

/-- serde_json's escaping of a single character inside a JSON string:
quote and backslash get a backslash escape, the control characters
BS/TAB/LF/FF/CR get their short escapes, all other control characters get
a lowercase `\u00XX` escape, and everything else is emitted verbatim. -/
def escChar (c : Char) : List Char :=
  if c = dquoteChar then [bslashChar, dquoteChar]
  else if c = bslashChar then [bslashChar, bslashChar]
  else if c.toNat = 8 then [bslashChar, 'b']
  else if c.toNat = 9 then [bslashChar, 't']
  else if c.toNat = 10 then [bslashChar, 'n']
  else if c.toNat = 12 then [bslashChar, 'f']
  else if c.toNat = 13 then [bslashChar, 'r']
  else if c.toNat < 32 then [bslashChar, 'u', '0', '0', hexDig (c.toNat / 16), hexDig (c.toNat % 16)]
  else [c]

def escapeL (s : List Char) : List Char := s.flatMap escChar

def serStr (s : List Char) : List Char := dquoteChar :: (escapeL s ++ [dquoteChar])

def commaSep : List (List Char) → List Char
  | [] => []
  | [x] => x
  | x :: y :: t => x ++ ',' :: commaSep (y :: t)

def serStrList (vs : List (List Char)) : List Char := '[' :: (commaSep (vs.map serStr) ++ [']'])

def serEntryL (e : List Char × List (List Char)) : List Char := serStr e.1 ++ ':' :: serStrList e.2

def serObjL (hs : List (List Char × List (List Char))) : List Char :=
  lbraceChar :: (commaSep (hs.map serEntryL) ++ [rbraceChar])

def consStr (c : Char) (o : Option (List Char × List Char)) : Option (List Char × List Char) :=
  o.map (fun p => (c :: p.1, p.2))

/-- JSON string-body parser (after the opening quote): returns the decoded
characters and the input remaining after the closing quote. -/
def parseStrBody : List Char → Option (List Char × List Char)
  | [] => none
  | c :: rest =>
    if c = dquoteChar then some ([], rest)
    else if c = bslashChar then
      match rest with
      | [] => none
      | e :: r =>
        if e = dquoteChar then consStr dquoteChar (parseStrBody r)
        else if e = bslashChar then consStr bslashChar (parseStrBody r)
        else if e = '/' then consStr '/' (parseStrBody r)
        else if e = 'b' then consStr (Char.ofNat 8) (parseStrBody r)
        else if e = 't' then consStr (Char.ofNat 9) (parseStrBody r)
        else if e = 'n' then consStr (Char.ofNat 10) (parseStrBody r)
        else if e = 'f' then consStr (Char.ofNat 12) (parseStrBody r)
        else if e = 'r' then consStr (Char.ofNat 13) (parseStrBody r)
        else if e = 'u' then
          match r with
          | h1 :: h2 :: h3 :: h4 :: r2 =>
            match hexVal h1, hexVal h2, hexVal h3, hexVal h4 with
            | some a, some b, some c2, some d =>
              consStr (Char.ofNat (((a * 16 + b) * 16 + c2) * 16 + d)) (parseStrBody r2)
            | _, _, _, _ => none
          | _ => none
        else none
    else consStr c (parseStrBody rest)

def parseStr : List Char → Option (List Char × List Char)
  | [] => none
  | c :: r => if c = dquoteChar then parseStrBody r else none

/-- Fueled parser for the elements of a nonempty JSON array of strings,
positioned after the opening bracket.  The fuel only bounds the number of
elements; callers pass at least the input length. -/
def parseListRest : Nat → List Char → Option (List (List Char) × List Char)
  | 0, _ => none
  | fuel + 1, l =>
    match parseStr l with
    | none => none
    | some (s, r) =>
      match r with
      | ',' :: r2 =>
        match parseListRest fuel r2 with
        | some (ss, r3) => some (s :: ss, r3)
        | none => none
      | ']' :: r2 => some ([s], r2)
      | _ => none

def parseStrList (fuel : Nat) (l : List Char) : Option (List (List Char) × List Char) :=
  match l with
  | '[' :: ']' :: r => some ([], r)
  | '[' :: r => parseListRest fuel r
  | _ => none

/-- Fueled parser for the entries of a nonempty JSON object whose values are
arrays of strings, positioned after the opening brace. -/
def parseEntriesRest : Nat → List Char → Option (List (List Char × List (List Char)) × List Char)
  | 0, _ => none
  | fuel + 1, l =>
    match parseStr l with
    | none => none
    | some (k, r) =>
      match r with
      | ':' :: r2 =>
        match parseStrList (fuel + 1) r2 with
        | none => none
        | some (vs, r3) =>
          match r3 with
          | ',' :: r4 =>
            match parseEntriesRest fuel r4 with
            | some (es, r5) => some ((k, vs) :: es, r5)
            | none => none
          | c :: r4 => if c = rbraceChar then some ([(k, vs)], r4) else none
          | [] => none
      | _ => none

def parseObjL (l : List Char) : Option (List (List Char × List (List Char)) × List Char) :=
  match l with
  | [] => none
  | c :: r =>
    if c = lbraceChar then
      match r with
      | [] => none
      | c2 :: r2 => if c2 = rbraceChar then some ([], r2) else parseEntriesRest (r.length + 1) r
    else none

/-- The header multimap held by `HttpHeaders` in src/db.rs: a map from header
name to the ordered list of its values (`HashMap<String, Vec<String>>`; key
uniqueness is the HashMap invariant and appears as a hypothesis where it
matters). -/
abbrev HttpHeaders := List (String × List String)

/-- `impl ToSql for HttpHeaders` (src/db.rs): `serde_json::to_string(&self.0)`. -/
def serHeadersJson (hs : HttpHeaders) : String :=
  String.mk (serObjL (hs.map (fun p => (p.1.data, p.2.map String.data))))

/-- `impl FromSql for HttpHeaders` (src/db.rs): `serde_json::from_str`, which
requires the whole text to be one JSON object of string arrays. -/
def parseHeadersJson (s : String) : Option HttpHeaders :=
  match parseObjL s.data with
  | some (es, []) => some (es.map (fun p => (String.mk p.1, p.2.map String.mk)))
  | _ => none

/-! ## Decimal codec: `StatusCode::as_str` and SQLite INTEGER affinity.
The upsert in src/db.rs binds `:status_code` to `entry.status_code.as_str()`
(the canonical decimal text); the `status_code INTEGER` column stores, by
SQLite type affinity, the integer that decimal text denotes. -/

def digitChar (d : Nat) : Char := Char.ofNat (48 + d)

def decimalReprAux : Nat → Nat → List Char
  | 0, _ => []
  | fuel + 1, n => if n < 10 then [digitChar n] else decimalReprAux fuel (n / 10) ++ [digitChar (n % 10)]

def decimalRepr (n : Nat) : List Char := decimalReprAux (n + 1) n

def isDigitCh (c : Char) : Bool := decide (48 ≤ c.toNat) && decide (c.toNat ≤ 57)

def decimalParse (l : List Char) : Option Nat :=
  if l = [] then none
  else if l.all isDigitCh then some (l.foldl (fun a c => a * 10 + (c.toNat - 48)) 0)
  else none

/-- `StatusCode::as_str()` for a status code (always three decimal digits in
the valid range 100..=999). -/
def statusAsStr (n : Nat) : String := String.mk (decimalRepr n)

/-- SQLite INTEGER affinity applied to a bound text value that is a canonical
decimal integer literal (the only shape this program binds). -/
def sqliteIntOfText (s : String) : Int := ((decimalParse s.data).getD 0 : Nat)

/-! ### Round trip of the JSON codec -/

theorem stringMkData (s : String) : String.mk s.data = s := rfl

theorem hexVal_hexDig (n : Nat) (h : n < 16) : hexVal (hexDig n) = some n := by
  interval_cases n <;> decide

theorem digitChar_toNat (n : Nat) (h : n < 10) : (digitChar n).toNat = 48 + n := by
  interval_cases n <;> decide

theorem digitChar_isDigit (n : Nat) (h : n < 10) : isDigitCh (digitChar n) = true := by
  interval_cases n <;> decide

theorem parseStrBody_escChar (c : Char) (l : List Char) :
    parseStrBody (escChar c ++ l) = consStr c (parseStrBody l) := by
  have h0 : hexVal '0' = some 0 := by decide
  unfold escChar
  split_ifs with h1 h2 h3 h4 h5 h6 h7 h8
  · subst h1
    rw [parseStrBody.eq_def]
    simp +decide only [List.cons_append, List.nil_append, if_true, if_false, ite_true, ite_false]
  · subst h2
    rw [parseStrBody.eq_def]
    simp +decide only [List.cons_append, List.nil_append, if_true, if_false, ite_true, ite_false]
  · have hc : c = Char.ofNat 8 := by rw [← Char.ofNat_toNat c, h3]
    subst hc
    rw [parseStrBody.eq_def]
    simp +decide only [List.cons_append, List.nil_append, if_true, if_false, ite_true, ite_false]
  · have hc : c = Char.ofNat 9 := by rw [← Char.ofNat_toNat c, h4]
    subst hc
    rw [parseStrBody.eq_def]
    simp +decide only [List.cons_append, List.nil_append, if_true, if_false, ite_true, ite_false]
  · have hc : c = Char.ofNat 10 := by rw [← Char.ofNat_toNat c, h5]
    subst hc
    rw [parseStrBody.eq_def]
    simp +decide only [List.cons_append, List.nil_append, if_true, if_false, ite_true, ite_false]
  · have hc : c = Char.ofNat 12 := by rw [← Char.ofNat_toNat c, h6]
    subst hc
    rw [parseStrBody.eq_def]
    simp +decide only [List.cons_append, List.nil_append, if_true, if_false, ite_true, ite_false]
  · have hc : c = Char.ofNat 13 := by rw [← Char.ofNat_toNat c, h7]
    subst hc
    rw [parseStrBody.eq_def]
    simp +decide only [List.cons_append, List.nil_append, if_true, if_false, ite_true, ite_false]
  · have hd1 : c.toNat / 16 < 16 := by omega
    have hd2 : c.toNat % 16 < 16 := by omega
    have harith : ((0 * 16 + 0) * 16 + c.toNat / 16) * 16 + c.toNat % 16 = c.toNat := by omega
    rw [parseStrBody.eq_def]
    simp +decide only [List.cons_append, List.nil_append, if_true, if_false, ite_true, ite_false,
      h0, hexVal_hexDig _ hd1, hexVal_hexDig _ hd2]
    rw [harith, Char.ofNat_toNat]
  · rw [List.cons_append, List.nil_append, parseStrBody.eq_def]
    simp only [h1, h2, if_false, ite_false]

theorem parseStrBody_ser (s rest : List Char) :
    parseStrBody (escapeL s ++ dquoteChar :: rest) = some (s, rest) := by
  induction s with
  | nil =>
    show parseStrBody ([] ++ dquoteChar :: rest) = some ([], rest)
    rw [List.nil_append, parseStrBody.eq_def]
    simp +decide only [if_true, ite_true]
  | cons c t ih =>
    have he : escapeL (c :: t) = escChar c ++ escapeL t := by simp [escapeL]
    rw [he, List.append_assoc, parseStrBody_escChar, ih]
    simp [consStr]

theorem parseStr_ser (s rest : List Char) :
    parseStr (serStr s ++ rest) = some (s, rest) := by
  have h : serStr s ++ rest = dquoteChar :: (escapeL s ++ dquoteChar :: rest) := by
    simp [serStr]
  rw [h, parseStr.eq_def]
  simp +decide only [if_true, ite_true]
  exact parseStrBody_ser s rest

theorem parseListRest_ser (vs : List (List Char)) (fuel : Nat) (rest : List Char)
    (hne : vs ≠ []) (hfuel : vs.length ≤ fuel) :
    parseListRest fuel (commaSep (vs.map serStr) ++ ']' :: rest) = some (vs, rest) := by
  induction vs generalizing fuel rest with
  | nil => exact absurd rfl hne
  | cons v t ih =>
    obtain ⟨f, rfl⟩ : ∃ f, fuel = f + 1 := ⟨fuel - 1, by simp at hfuel; omega⟩
    cases t with
    | nil =>
      have h1 : commaSep ([v].map serStr) = serStr v := by simp [commaSep]
      rw [h1, parseListRest, parseStr_ser]
      simp +decide only []
    | cons v2 t2 =>
      have h1 : commaSep ((v :: v2 :: t2).map serStr)
          = serStr v ++ ',' :: commaSep ((v2 :: t2).map serStr) := by
        simp [commaSep]
      rw [h1, List.append_assoc, List.cons_append, parseListRest, parseStr_ser]
      simp +decide only []
      rw [ih _ _ (by simp) (by simp at hfuel ⊢; omega)]

theorem parseStrList_ser (vs : List (List Char)) (fuel : Nat) (rest : List Char)
    (hfuel : vs.length ≤ fuel) :
    parseStrList fuel (serStrList vs ++ rest) = some (vs, rest) := by
  cases vs with
  | nil =>
    show parseStrList fuel ('[' :: (commaSep ([].map serStr) ++ [']']) ++ rest) = some ([], rest)
    simp [commaSep, parseStrList]
  | cons v t =>
    obtain ⟨z, hz⟩ : ∃ z, commaSep ((v :: t).map serStr) = dquoteChar :: z := by
      cases t <;> simp [commaSep, serStr]
    have hshape : serStrList (v :: t) ++ rest
        = '[' :: (commaSep ((v :: t).map serStr) ++ ']' :: rest) := by
      simp [serStrList]
    rw [hshape, hz, List.cons_append, parseStrList]
    · rw [← List.cons_append, ← hz]
      exact parseListRest_ser _ _ _ (by simp) hfuel
    · intro r1 hr1
      simp +decide at hr1

def objFuel : List (List Char × List (List Char)) → Nat
  | [] => 0
  | e :: t => e.2.length + 1 + objFuel t

theorem parseEntriesRest_ser (hs : List (List Char × List (List Char))) (fuel : Nat)
    (rest : List Char) (hne : hs ≠ []) (hfuel : objFuel hs ≤ fuel) :
    parseEntriesRest fuel (commaSep (hs.map serEntryL) ++ rbraceChar :: rest) = some (hs, rest) := by
  induction hs generalizing fuel rest with
  | nil => exact absurd rfl hne
  | cons e t ih =>
    obtain ⟨f, rfl⟩ : ∃ f, fuel = f + 1 := ⟨fuel - 1, by simp [objFuel] at hfuel; omega⟩
    cases t with
    | nil =>
      have h1 : commaSep ([e].map serEntryL) = serStr e.1 ++ ':' :: serStrList e.2 := by
        simp [commaSep, serEntryL]
      rw [h1, List.append_assoc, List.cons_append, parseEntriesRest, parseStr_ser]
      simp +decide only []
      rw [parseStrList_ser _ _ _ (by simp [objFuel] at hfuel; omega)]
      simp +decide
    | cons e2 t2 =>
      have h1 : commaSep ((e :: e2 :: t2).map serEntryL)
          = (serStr e.1 ++ ':' :: serStrList e.2) ++ ',' :: commaSep ((e2 :: t2).map serEntryL) := by
        simp [commaSep, serEntryL]
      rw [h1, List.append_assoc, List.append_assoc, List.cons_append, List.cons_append,
        parseEntriesRest, parseStr_ser]
      simp +decide only []
      rw [parseStrList_ser _ _ _ (by simp [objFuel] at hfuel; omega)]
      simp +decide only []
      rw [ih _ _ (by simp) (by simp [objFuel] at hfuel ⊢; omega)]

theorem serStr_len (s : List Char) : 2 ≤ (serStr s).length := by
  simp [serStr]

theorem commaSep_serStr_len (vs : List (List Char)) (h : vs ≠ []) :
    vs.length ≤ (commaSep (vs.map serStr)).length := by
  induction vs with
  | nil => exact absurd rfl h
  | cons v t ih =>
    cases t with
    | nil =>
      have h1 : commaSep ([v].map serStr) = serStr v := by simp [commaSep]
      rw [h1]
      have := serStr_len v
      simp
      omega
    | cons v2 t2 =>
      have h1 : commaSep ((v :: v2 :: t2).map serStr)
          = serStr v ++ ',' :: commaSep ((v2 :: t2).map serStr) := by
        simp [commaSep]
      rw [h1]
      have h2 := ih (by simp)
      have h3 := serStr_len v
      simp at h2 ⊢
      omega

theorem serStrList_len (vs : List (List Char)) : vs.length + 2 ≤ (serStrList vs).length := by
  cases vs with
  | nil => simp [serStrList, commaSep]
  | cons v t =>
    have h1 := commaSep_serStr_len (v :: t) (by simp)
    simp [serStrList] at h1 ⊢
    omega

theorem commaSep_serEntry_len (hs : List (List Char × List (List Char))) (h : hs ≠ []) :
    objFuel hs ≤ (commaSep (hs.map serEntryL)).length := by
  induction hs with
  | nil => exact absurd rfl h
  | cons e t ih =>
    cases t with
    | nil =>
      have h1 : commaSep ([e].map serEntryL) = serStr e.1 ++ ':' :: serStrList e.2 := by
        simp [commaSep, serEntryL]
      rw [h1]
      have h2 := serStr_len e.1
      have h3 := serStrList_len e.2
      simp [objFuel]
      omega
    | cons e2 t2 =>
      have h1 : commaSep ((e :: e2 :: t2).map serEntryL)
          = (serStr e.1 ++ ':' :: serStrList e.2) ++ ',' :: commaSep ((e2 :: t2).map serEntryL) := by
        simp [commaSep, serEntryL]
      rw [h1]
      have h2 := ih (by simp)
      have h3 := serStr_len e.1
      have h4 := serStrList_len e.2
      simp [objFuel] at h2 ⊢
      omega

theorem parseObjL_ser (hs : List (List Char × List (List Char))) :
    parseObjL (serObjL hs) = some (hs, []) := by
  cases hs with
  | nil => decide
  | cons e t =>
    obtain ⟨z, hz⟩ : ∃ z, commaSep ((e :: t).map serEntryL) = dquoteChar :: z := by
      cases t <;> simp [commaSep, serEntryL, serStr]
    have hshape : serObjL (e :: t)
        = lbraceChar :: (commaSep ((e :: t).map serEntryL) ++ rbraceChar :: []) := by
      simp [serObjL]
    rw [hshape, hz, List.cons_append, parseObjL]
    simp +decide only [if_true, if_false, ite_true, ite_false]
    rw [← List.cons_append, ← hz]
    refine parseEntriesRest_ser _ _ _ (by simp) ?_
    have h1 := commaSep_serEntry_len (e :: t) (by simp)
    simp at h1 ⊢
    omega

theorem parseHeadersJson_ser (hs : HttpHeaders) :
    parseHeadersJson (serHeadersJson hs) = some hs := by
  unfold parseHeadersJson serHeadersJson
  rw [show (String.mk (serObjL (hs.map fun p => (p.1.data, p.2.map String.data)))).data
      = serObjL (hs.map fun p => (p.1.data, p.2.map String.data)) from rfl]
  rw [parseObjL_ser]
  simp [List.map_map, Function.comp_def, stringMkData]

/-! ### Round trip of the decimal codec -/

theorem decimalReprAux_ne_nil (fuel n : Nat) : decimalReprAux (fuel + 1) n ≠ [] := by
  rw [decimalReprAux]
  split_ifs <;> simp

theorem decimalReprAux_digits (fuel n : Nat) : (decimalReprAux fuel n).all isDigitCh = true := by
  induction fuel generalizing n with
  | zero => simp [decimalReprAux]
  | succ f ih =>
    rw [decimalReprAux]
    split_ifs with h
    · simp [digitChar_isDigit _ h]
    · simp [ih, digitChar_isDigit _ (Nat.mod_lt _ (by omega))]

theorem decimalReprAux_foldl (fuel : Nat) : ∀ n a : Nat, n < 10 ^ fuel →
    (decimalReprAux fuel n).foldl (fun a c => a * 10 + (c.toNat - 48)) a
      = a * 10 ^ (decimalReprAux fuel n).length + n := by
  induction fuel with
  | zero =>
    intro n a h
    have hn : n = 0 := by simpa using h
    simp [decimalReprAux, hn]
  | succ f ih =>
    intro n a h
    rw [decimalReprAux]
    split_ifs with h10
    · simp only [List.foldl_cons, List.foldl_nil, List.length_cons, List.length_nil,
        digitChar_toNat _ h10, pow_one, Nat.zero_add]
      omega
    · have hdiv : n / 10 < 10 ^ f := by
        rw [Nat.div_lt_iff_lt_mul (by norm_num)]
        calc n < 10 ^ (f + 1) := h
          _ = 10 ^ f * 10 := by ring
      have hm : (digitChar (n % 10)).toNat = 48 + n % 10 :=
        digitChar_toNat _ (Nat.mod_lt _ (by omega))
      rw [List.foldl_append, ih _ _ hdiv]
      simp only [List.foldl_cons, List.foldl_nil, List.length_append, List.length_cons,
        List.length_nil, hm, Nat.zero_add]
      have h48 : 48 + n % 10 - 48 = n % 10 := by omega
      rw [h48]
      have hmod : n / 10 * 10 + n % 10 = n := by omega
      calc (a * 10 ^ (decimalReprAux f (n / 10)).length + n / 10) * 10 + n % 10
          = a * (10 ^ (decimalReprAux f (n / 10)).length * 10) + (n / 10 * 10 + n % 10) := by
            ring
        _ = a * 10 ^ ((decimalReprAux f (n / 10)).length + 1) + n := by rw [hmod, pow_succ]

theorem decimalParse_repr (n : Nat) : decimalParse (decimalRepr n) = some n := by
  have hlt : n < 10 ^ (n + 1) :=
    calc n < 10 ^ n := Nat.lt_pow_self (by norm_num) n
      _ ≤ 10 ^ (n + 1) := Nat.pow_le_pow_right (by norm_num) (by omega)
  unfold decimalParse decimalRepr
  rw [if_neg (decimalReprAux_ne_nil n n)]
  rw [if_pos (decimalReprAux_digits (n + 1) n)]
  rw [decimalReprAux_foldl (n + 1) n 0 hlt]
  simp

theorem sqliteIntOfText_statusAsStr (n : Nat) : sqliteIntOfText (statusAsStr n) = (n : Int) := by
  unfold sqliteIntOfText statusAsStr
  rw [show (String.mk (decimalRepr n)).data = decimalRepr n from rfl, decimalParse_repr]
  rfl

/-! ## Target resolver (src/main.rs): PATH_RE, the url crate, ShakyUrl -/

def isSchemeStartChar (c : Char) : Bool := decide (97 ≤ c.toNat) && decide (c.toNat ≤ 122)

/-- Characters of the regex class `[a-z0-9+\-.]` (the scheme-token
continuation in PATH_RE, src/main.rs; also the url crate's scheme
continuation set restricted to lowercase input). -/
def isSchemeChar (c : Char) : Bool :=
  (decide (97 ≤ c.toNat) && decide (c.toNat ≤ 122)) ||
  (decide (48 ≤ c.toNat) && decide (c.toNat ≤ 57)) ||
  decide (c.toNat = 43) || decide (c.toNat = 45) || decide (c.toNat = 46)

/-- Host characters admitted by this model of the url crate's host parser:
lowercase letters, digits, '-', '.', '_'.  The real parser additionally
handles IDNA, percent-encoding, userinfo, ports and IP literals; the URLs
this development quantifies over keep to this subset, on which the crate's
host parsing is the identity. -/
def isHostChar (c : Char) : Bool :=
  (decide (97 ≤ c.toNat) && decide (c.toNat ≤ 122)) ||
  (decide (48 ≤ c.toNat) && decide (c.toNat ≤ 57)) ||
  decide (c.toNat = 45) || decide (c.toNat = 46) || decide (c.toNat = 95)

/-- A character ending the authority of a special-scheme URL: '/' or '?'. -/
def isHostEnd (c : Char) : Bool := decide (c.toNat = 47) || decide (c.toNat = 63)

/-- The `url::Url` values this development works with. -/
structure Url where
  scheme : String
  host : Option String
  path : String
  query : Option String
deriving DecidableEq

/-- `url::Url::to_string()` / `as_str()` for the URL shapes of this
development: `scheme://host` followed by path and optional query for
authority URLs, `scheme:` followed by the opaque remainder otherwise. -/
def Url.toString (u : Url) : String :=
  match u.host with
  | some h =>
    u.scheme ++ "://" ++ h ++ u.path ++ (match u.query with | some q => "?" ++ q | none => "")
  | none => u.scheme ++ ":" ++ u.path ++ (match u.query with | some q => "?" ++ q | none => "")

/-- Split a scheme token off a character list: `[a-z][a-z0-9+\-.]*` followed
by ':'.  Both the url crate's scheme parse (restricted to lowercase input)
and the scheme group of PATH_RE take exactly this shape. -/
def splitScheme (l : List Char) : Option (String × List Char) :=
  match l with
  | [] => none
  | c :: rest =>
    if isSchemeStartChar c then
      match rest.dropWhile isSchemeChar with
      | ':' :: r => some (String.mk (c :: rest.takeWhile isSchemeChar), r)
      | _ => none
    else none

/-- The url crate after a special scheme's colon: skip every slash, read a
nonempty simple authority up to '/' or '?', then the path (empty
normalizes to "/") and the optional query. -/
def parseSpecialRest (scheme : String) (r : List Char) : Option Url :=
  let r2 := r.dropWhile (fun x => decide (x = '/'))
  let auth := r2.takeWhile (fun x => !isHostEnd x)
  let r3 := r2.dropWhile (fun x => !isHostEnd x)
  if auth = [] then none
  else if !auth.all isHostChar then none
  else
    let p := r3.takeWhile (fun x => decide (x ≠ '?'))
    let rq := r3.dropWhile (fun x => decide (x ≠ '?'))
    let path : String := if p = [] then "/" else String.mk p
    let query : Option String := match rq with | _ :: qt => some (String.mk qt) | [] => none
    some ⟨scheme, some (String.mk auth), path, query⟩

/-- Model of `url::Url::parse`: a scheme token, then for http/https (the
special schemes this program admits) authority, path and query; for other
schemes the remainder is kept opaque (only the scheme matters downstream).
Fails exactly on inputs with no scheme, and on special-scheme inputs with
an empty or non-simple authority. -/
def parseUrlL (l : List Char) : Option Url :=
  match splitScheme l with
  | none => none
  | some (scheme, r) =>
    if scheme = "http" || scheme = "https" then parseSpecialRest scheme r
    else some ⟨scheme, none, String.mk r, none⟩

def Url.parse (s : String) : Option Url := parseUrlL s.data

/-- One anchored match of `PATH_RE = ^/?([a-z][a-z0-9+\-.]*:)/+` after the
optional leading slash has been handled by the caller: a scheme token, a
colon, then one-or-more slashes; yields the captured scheme and the input
after all the slashes. -/
def matchSchemeSlashes (l : List Char) : Option (String × List Char) :=
  match splitScheme l with
  | some (sch, r) =>
    if r.head? = some '/' then some (sch, r.dropWhile (fun x => decide (x = '/')))
    else none
  | none => none

/-- `PATH_RE.replace(uri, "${1}//")` (src/main.rs): rewrite the first match
of `^/?([a-z][a-z0-9+\-.]*:)/+` to the captured group (scheme and colon)
followed by exactly `//`.  When the input starts with '/' but the rest does
not continue with `scheme:/`, the regex cannot match at all (retrying with
the optional slash unconsumed immediately fails on `[a-z]`), so the input
is returned unchanged. -/
def denormL (l : List Char) : List Char :=
  match l with
  | '/' :: t =>
    match matchSchemeSlashes t with
    | some (sch, rest2) => sch.data ++ ':' :: '/' :: '/' :: rest2
    | none => l
  | _ =>
    match matchSchemeSlashes l with
    | some (sch, rest2) => sch.data ++ ':' :: '/' :: '/' :: rest2
    | none => l

inductive ShakyUrlError where
  | strErr (msg : String)
  | parseErr
deriving DecidableEq

instance {e a : Type} [DecidableEq e] [DecidableEq a] : DecidableEq (Except e a) := fun x y =>
  match x, y with
  | Except.ok v, Except.ok w => decidable_of_iff (v = w) (by simp)
  | Except.error v, Except.error w => decidable_of_iff (v = w) (by simp)
  | Except.ok _, Except.error _ => isFalse (fun h => Except.noConfusion h)
  | Except.error _, Except.ok _ => isFalse (fun h => Except.noConfusion h)

/-- `TryFrom<&str> for ShakyUrl` (src/main.rs): denormalize with PATH_RE,
parse, then require the scheme to be exactly http or https.  The
parse-failure message interpolates the url crate's error display, elided
here. -/
def ShakyUrl.tryFrom (s : String) : Except String Url :=
  let uri := String.mk (denormL s.data)
  match Url.parse uri with
  | some u =>
    if !(u.scheme = "https" || u.scheme = "http") then
      Except.error ("Unknown scheme: " ++ u.scheme)
    else Except.ok u
  | none => Except.error ("Invalid url " ++ uri)

/-- `ShakyUrl::from_request` (src/main.rs): reassemble the matched
`url_no_query` path segment plus `?query` when the query string is
nonempty, denormalize, parse, check the scheme.  An `Err` here is returned
by actix before the `cache` handler body ever runs, rendered through
`ResponseError` with status 500. -/
def ShakyUrl.fromRequest (pathPart queryString : String) : Except ShakyUrlError Url :=
  let uri0 := pathPart ++ (if queryString = "" then "" else "?" ++ queryString)
  let uri := String.mk (denormL uri0.data)
  match Url.parse uri with
  | some u =>
    if !(u.scheme = "https" || u.scheme = "http") then
      Except.error (ShakyUrlError.strErr ("Unknown scheme: " ++ u.scheme))
    else Except.ok u
  | none => Except.error ShakyUrlError.parseErr

/-- Printable-ASCII path characters excluding the ones the url crate
percent-encodes or treats specially in paths ('?', '#', '\', '"', '<', '>',
backtick, braces).  Canonical `to_string` output keeps to this set. -/
def isPathChar (c : Char) : Bool :=
  decide (33 ≤ c.toNat) && decide (c.toNat ≤ 126) && decide (c.toNat ≠ 63) &&
  decide (c.toNat ≠ 35) && decide (c.toNat ≠ 92) && decide (c.toNat ≠ 34) &&
  decide (c.toNat ≠ 60) && decide (c.toNat ≠ 62) && decide (c.toNat ≠ 96) &&
  decide (c.toNat ≠ 123) && decide (c.toNat ≠ 125)

/-- Query characters: like path characters but '?' is allowed. -/
def isQueryChar (c : Char) : Bool :=
  decide (33 ≤ c.toNat) && decide (c.toNat ≤ 126) && decide (c.toNat ≠ 35) &&
  decide (c.toNat ≠ 92) && decide (c.toNat ≠ 34) && decide (c.toNat ≠ 60) &&
  decide (c.toNat ≠ 62) && decide (c.toNat ≠ 96) && decide (c.toNat ≠ 123) &&
  decide (c.toNat ≠ 125)

/-- Split a character list at every '/'. -/
def splitSlash : List Char → List (List Char)
  | [] => [[]]
  | c :: t =>
    if c = '/' then [] :: splitSlash t
    else
      match splitSlash t with
      | s :: ss => (c :: s) :: ss
      | [] => [[c]]

/-- Canonical well-formed absolute http(s) URLs: what `Url::to_string`
produces after the crate's normalization — scheme exactly "http" or
"https", a nonempty simple host, an absolute path without dot segments,
and an optional query over query characters. -/
def Url.wellFormed (u : Url) : Bool :=
  (u.scheme = "http" || u.scheme = "https") &&
  (match u.host with
   | some h => decide (h ≠ "") && h.data.all isHostChar
   | none => false) &&
  decide (u.path ≠ "") && decide (u.path.data.head? = some '/') && u.path.data.all isPathChar &&
  ((splitSlash u.path.data).all fun seg => decide (seg ≠ ['.']) && decide (seg ≠ ['.', '.'])) &&
  (match u.query with
   | some q => q.data.all isQueryChar
   | none => true)

/-- The proxy-path embedding of a URL: optional leading slash, then the
URL's string form where the client may have collapsed `://` to `:/`
(the BOTT-INT comment on PATH_RE in src/main.rs). -/
def embedProxyPath (slash collapse : Bool) (u : Url) : String :=
  (if slash then "/" else "") ++ u.scheme ++ (if collapse then ":/" else "://") ++
    u.host.getD "" ++ u.path ++ (match u.query with | some q => "?" ++ q | none => "")

/-! ## Cache store (src/db.rs) -/

/-- `CacheSettings` (src/db.rs).  The `sql` field built by
`CacheSettings::new` is represented semantically by `rowMatches` below,
clause by clause. -/
structure CacheSettings where
  client_errors : Bool
  server_errors : Bool
  ttl : Nat
deriving DecidableEq

/-- One row of the `cache` table (schema in CREATE_SQL, src/db.rs):
`method TEXT, url TEXT, content BLOB, headers TEXT, status_code INTEGER,
last_update TEXT` — the timestamp column as `Int` seconds. -/
structure Row where
  method : String
  url : String
  content : List Nat
  headers : String
  status_code : Int
  last_update : Int
deriving DecidableEq

def rowKey (r : Row) : String × String := (r.method, r.url)

/-- The status clause `CacheSettings::new` appends to the SELECT:
`(status_code < 400 [OR status_code BETWEEN 400 AND 499 when client_errors]
[OR status_code BETWEEN 500 AND 599 when server_errors])`. -/
def statusFilter (s : CacheSettings) (st : Int) : Bool :=
  decide (st < 400) ||
  (s.client_errors && (decide (400 ≤ st) && decide (st ≤ 499))) ||
  (s.server_errors && (decide (500 ≤ st) && decide (st ≤ 599)))

/-- The WHERE clause of the SELECT built by `CacheSettings::new`:
`method = :method AND url = :url`, the `last_update >
datetime(CURRENT_TIMESTAMP, '-ttl seconds')` clause added exactly when
`ttl > 0`, and the status clause. -/
def rowMatches (s : CacheSettings) (m u : String) (now : Int) (r : Row) : Bool :=
  decide (r.method = m) && decide (r.url = u) &&
  (if s.ttl = 0 then true else decide (now - (s.ttl : Int) < r.last_update)) &&
  statusFilter s r.status_code

/-- The read in `execute` (src/db.rs): run the settings' SELECT and take the
first returned row (`entry_iter.next()`). -/
def lookupRow (s : CacheSettings) (store : List Row) (m u : String) (now : Int) : Option Row :=
  (store.filter (rowMatches s m u now)).head?

/-- UPSERT_SQL (src/db.rs): insert the row, or on (method, url) conflict
overwrite content, headers and status_code and reset last_update to the
write time (the insert path's last_update comes from the column's
CURRENT_TIMESTAMP default). -/
def upsertRow (store : List Row) (r : Row) : List Row :=
  if store.any (fun x => decide (x.method = r.method) && decide (x.url = r.url)) then
    store.map (fun x =>
      if x.method = r.method ∧ x.url = r.url then
        { x with content := r.content, headers := r.headers,
                 status_code := r.status_code, last_update := r.last_update }
      else x)
  else store ++ [r]

/-- `Entry` (src/db.rs); the method as its token string, the status code as
a `Nat` in 100..=999. -/
structure Entry where
  method : String
  url : Url
  content : List Nat
  headers : HttpHeaders
  status_code : Nat
  last_update : Int
deriving DecidableEq

/-- RFC 7230 token characters, the strings `Method::from_str` accepts. -/
def isTokenChar (c : Char) : Bool :=
  (decide (48 ≤ c.toNat) && decide (c.toNat ≤ 57)) ||
  (decide (65 ≤ c.toNat) && decide (c.toNat ≤ 90)) ||
  (decide (97 ≤ c.toNat) && decide (c.toNat ≤ 122)) ||
  decide (c.toNat = 33) || decide (c.toNat = 35) || decide (c.toNat = 36) ||
  decide (c.toNat = 37) || decide (c.toNat = 38) || decide (c.toNat = 39) ||
  decide (c.toNat = 42) || decide (c.toNat = 43) || decide (c.toNat = 45) ||
  decide (c.toNat = 46) || decide (c.toNat = 94) || decide (c.toNat = 95) ||
  decide (c.toNat = 96) || decide (c.toNat = 124) || decide (c.toNat = 126)

def isMethodToken (s : String) : Bool := decide (s ≠ "") && s.data.all isTokenChar

/-- How `TryFrom<&Row> for Entry` (src/db.rs) can go wrong: `row.get` /
FromSql failures become `rusqlite::Error`s that the caller maps to an
internal-error response (`sqlFail`), while `Method::from_str(..).unwrap()`
and `StatusCode::from_u16(..).unwrap()` abort the task (`fatalFail`). -/
inductive RowConvError where
  | sqlFail
  | fatalFail
deriving DecidableEq

/-- `TryFrom<&Row> for Entry` (src/db.rs): method string re-parsed by
`Method::from_str` (unwrap), url column re-parsed by the url crate's
FromSql, headers column deserialized from JSON, status column read as u16
and passed through `StatusCode::from_u16` (unwrap). -/
def Entry.tryFromRow (r : Row) : Except RowConvError Entry :=
  if !isMethodToken r.method then Except.error RowConvError.fatalFail
  else
    match Url.parse r.url with
    | none => Except.error RowConvError.sqlFail
    | some u =>
      match parseHeadersJson r.headers with
      | none => Except.error RowConvError.sqlFail
      | some hs =>
        if r.status_code < 0 ∨ 65535 < r.status_code then Except.error RowConvError.sqlFail
        else if r.status_code < 100 ∨ 999 < r.status_code then Except.error RowConvError.fatalFail
        else
          Except.ok
            { method := r.method, url := u, content := r.content, headers := hs,
              status_code := r.status_code.toNat, last_update := r.last_update }

/-- An HTTP response as the client sees it: status, the flat header list in
emission order, body bytes. -/
structure ResponseM where
  status : Nat
  headers : List (String × String)
  body : List Nat
deriving DecidableEq

/-- `Into<HttpResponse> for &Entry` (src/db.rs): the stored status, every
stored header value appended once per list entry, the stored body. -/
def Entry.render (e : Entry) : ResponseM :=
  { status := e.status_code,
    headers := e.headers.flatMap (fun p => p.2.map (fun v => (p.1, v))),
    body := e.content }

/-! ## Header maps (actix `HeaderMap` and `HttpHeaders`, src/db.rs) -/

/-- All values of a header name, in order, from a flat header list. -/
def getAll (hs : List (String × String)) (n : String) : List String :=
  (hs.filter (fun p => decide (p.1 = n))).map (fun p => p.2)

/-- `insert_header` on an actix map (awc `ClientRequest::insert_header`,
`HttpResponseBuilder::insert_header`): replace every value previously held
under the name with the single new value. -/
def insertHeader (hs : List (String × String)) (n v : String) : List (String × String) :=
  hs.filter (fun p => decide (p.1 ≠ n)) ++ [(n, v)]

/-- The last value a flat header list holds for a name, if any. -/
def lastVal (hs : List (String × String)) (n : String) : Option String :=
  hs.foldl (fun a p => if p.1 = n then some p.2 else a) none

/-- The response-header filter on the miss path (src/db.rs):
`!(*h == "connection" || *h == "content-encoding")`. -/
def keepHeader (n : String) : Bool :=
  !(decide (n = "connection") || decide (n = "content-encoding"))

/-- Building `client_response`'s header map on the miss path (src/db.rs):
every origin header that passes the filter is `insert_header`ed in order
into an empty map. -/
def captureHeaders (hs : List (String × String)) : List (String × String) :=
  (hs.filter (fun p => keepHeader p.1)).foldl (fun a p => insertHeader a p.1 p.2) []

/-- The distinct names of a flat header list (order irrelevant: it models
HashMap key iteration). -/
def dedupKeys : List String → List String
  | [] => []
  | n :: t =>
    let r := dedupKeys t
    if n ∈ r then r else n :: r

/-- `From<&HeaderMap> for HttpHeaders` (src/db.rs): for each distinct key,
collect all its values in order. -/
def HttpHeaders.fromMap (hs : List (String × String)) : HttpHeaders :=
  (dedupKeys (hs.map (fun p => p.1))).map (fun k => (k, getAll hs k))

/-- The outbound request headers on the miss path (src/db.rs): every inbound
header pair `insert_header`ed in order, then `host` unconditionally set to
`url.host().unwrap()`. -/
def buildOutbound (reqHeaders : List (String × String)) (u : Url) : List (String × String) :=
  insertHeader (reqHeaders.foldl (fun a p => insertHeader a p.1 p.2) []) "host" (u.host.getD "")

/-! ## The proxy core: `execute` (src/db.rs) and the `cache` handler
(src/main.rs) -/

/-- The origin's response on the miss path, after the transport layer has
decoded the body (hence the `content-encoding` drop). -/
structure OriginResponse where
  status : Nat
  headers : List (String × String)
  body : List Nat
deriving DecidableEq

/-- Outcomes of the five fallible store operations in `execute`
(src/db.rs): pool.get, prepare_cached of the SELECT, query_map, prepare_cached
of UPSERT_SQL, and the upsert's execute. -/
structure DbFates where
  poolOk : Bool
  prepareReadOk : Bool
  queryOk : Bool
  prepareWriteOk : Bool
  upsertOk : Bool
deriving DecidableEq

def DbFates.allOk : DbFates := ⟨true, true, true, true, true⟩

/-- The entry built on the miss path (src/db.rs): the request method, the
resolved url, the origin body, the captured (filtered, last-value-per-name)
headers regrouped by name, the origin status, and the write time. -/
def missEntry (method : String) (u : Url) (origin : OriginResponse) (now : Int) : Entry :=
  { method := method, url := u, content := origin.body,
    headers := HttpHeaders.fromMap (captureHeaders origin.headers),
    status_code := origin.status, last_update := now }

/-- How an entry is bound into UPSERT_SQL (src/db.rs): the url via
`ToSql for Url` (its string form), the headers serialized to JSON, the
status as `as_str()` converted by the column's INTEGER affinity, and
last_update from CURRENT_TIMESTAMP. -/
def Entry.toRow (e : Entry) (now : Int) : Row :=
  { method := e.method, url := e.url.toString, content := e.content,
    headers := serHeadersJson e.headers,
    status_code := sqliteIntOfText (statusAsStr e.status_code),
    last_update := now }

/-- The result of `execute` (src/db.rs): a response (with the store as left
behind and, on a fetch, the outbound request headers), an error mapped by
`error::ErrorInternalServerError` and surfaced as a 500 response, or a
panic from one of the `unwrap()` calls, which produces no response. -/
inductive ExecResult where
  | success (resp : ResponseM) (store : List Row) (outbound : Option (List (String × String)))
  | dbError (store : List Row)
  | fatal (store : List Row)
deriving DecidableEq

def ExecResult.storeOf : ExecResult → List Row
  | ExecResult.success _ st _ => st
  | ExecResult.dbError st => st
  | ExecResult.fatal st => st

/-- `execute` (src/db.rs), step by step: acquire a pooled connection
(`map_err ErrorInternalServerError`), `prepare_cached(settings.to_sql())
.unwrap()`, `query_map(..).map_err(ErrorInternalServerError)`; on a hit,
convert the row (rusqlite errors → internal error, unwraps → panic) and
render it; on a miss, build the outbound request, fetch (assumed to
succeed; its `unwrap()`s are outside the cache-store model), capture the
response, `prepare_cached(UPSERT_SQL).unwrap()`, `execute(..).unwrap()`,
and render the same entry that was stored. -/
def execute (s : CacheSettings) (f : DbFates) (store : List Row) (method : String)
    (reqHeaders : List (String × String)) (u : Url) (origin : OriginResponse)
    (now : Int) : ExecResult :=
  if !f.poolOk then ExecResult.dbError store
  else if !f.prepareReadOk then ExecResult.fatal store
  else if !f.queryOk then ExecResult.dbError store
  else
    match lookupRow s store method u.toString now with
    | some r =>
      match Entry.tryFromRow r with
      | Except.ok e => ExecResult.success e.render store none
      | Except.error RowConvError.sqlFail => ExecResult.dbError store
      | Except.error RowConvError.fatalFail => ExecResult.fatal store
    | none =>
      let outbound := buildOutbound reqHeaders u
      let e := missEntry method u origin now
      if !f.prepareWriteOk then ExecResult.fatal store
      else if !f.upsertOk then ExecResult.fatal store
      else ExecResult.success e.render (upsertRow store (e.toRow now)) (some outbound)

/-- The OPTIONS short-circuit response (src/main.rs): `200 OK` with the two
CORS headers appended and an empty body. -/
def corsResponse : ResponseM :=
  { status := 200,
    headers := [("access-control-allow-origin", "*"), ("access-control-allow-headers", "*")],
    body := [] }

/-- What handling one routed request produces: an extractor failure
(rendered by `ResponseError` as a 500 before the handler body runs), the
OPTIONS short-circuit, or the result of `db::execute`. -/
inductive HandlerResult where
  | resolveError (e : ShakyUrlError)
  | shortCircuit (resp : ResponseM)
  | fromExecute (r : ExecResult)
deriving DecidableEq

/-- The `cache` handler (src/main.rs) together with its `ShakyUrl`
extractor: actix runs `ShakyUrl::from_request` first; on success, an
OPTIONS request is answered directly with `corsResponse`, any other method
goes through `db::execute`. -/
def handle (s : CacheSettings) (f : DbFates) (store : List Row) (method : String)
    (pathPart queryString : String) (reqHeaders : List (String × String))
    (origin : OriginResponse) (now : Int) : HandlerResult :=
  match ShakyUrl.fromRequest pathPart queryString with
  | Except.error e => HandlerResult.resolveError e
  | Except.ok u =>
    if method = "OPTIONS" then HandlerResult.shortCircuit corsResponse
    else HandlerResult.fromExecute (execute s f store method reqHeaders u origin now)

/-- The response the client receives: extractor errors render as status 500
(`ShakyUrlError::status_code`; header and body details elided), internal
errors as 500, a panic produces none. -/
def HandlerResult.response : HandlerResult → Option ResponseM
  | HandlerResult.resolveError _ => some { status := 500, headers := [], body := [] }
  | HandlerResult.shortCircuit r => some r
  | HandlerResult.fromExecute (ExecResult.success r _ _) => some r
  | HandlerResult.fromExecute (ExecResult.dbError _) =>
      some { status := 500, headers := [], body := [] }
  | HandlerResult.fromExecute (ExecResult.fatal _) => none

/-- The store as left behind by a handled request. -/
def HandlerResult.storeOf (init : List Row) : HandlerResult → List Row
  | HandlerResult.fromExecute r => r.storeOf
  | _ => init

/-! ### Resolver lemmas -/

theorem takeWhileAllAppend {α : Type} (p : α → Bool) (l1 l2 : List α) (h : l1.all p = true) :
    (l1 ++ l2).takeWhile p = l1 ++ l2.takeWhile p := by
  induction l1 with
  | nil => simp
  | cons c t ih =>
    simp only [List.all_cons, Bool.and_eq_true] at h
    simp only [List.cons_append, List.takeWhile_cons_of_pos h.1]
    rw [ih h.2]

theorem dropWhileAllAppend {α : Type} (p : α → Bool) (l1 l2 : List α) (h : l1.all p = true) :
    (l1 ++ l2).dropWhile p = l2.dropWhile p := by
  induction l1 with
  | nil => simp
  | cons c t ih =>
    simp only [List.all_cons, Bool.and_eq_true] at h
    simp only [List.cons_append, List.dropWhile_cons_of_pos h.1]
    exact ih h.2

theorem takeWhileAllConsNeg {α : Type} (p : α → Bool) (l1 : List α) (c : α) (l2 : List α)
    (h1 : l1.all p = true) (h2 : p c = false) :
    (l1 ++ c :: l2).takeWhile p = l1 := by
  rw [takeWhileAllAppend p l1 _ h1, List.takeWhile_cons_of_neg (by simp [h2]), List.append_nil]

theorem dropWhileAllConsNeg {α : Type} (p : α → Bool) (l1 : List α) (c : α) (l2 : List α)
    (h1 : l1.all p = true) (h2 : p c = false) :
    (l1 ++ c :: l2).dropWhile p = c :: l2 := by
  rw [dropWhileAllAppend p l1 _ h1, List.dropWhile_cons_of_neg (by simp [h2])]

theorem allImp {α : Type} (p q : α → Bool) (l : List α)
    (hpq : ∀ c, p c = true → q c = true) (h : l.all p = true) : l.all q = true := by
  rw [List.all_eq_true] at h ⊢
  exact fun x hx => hpq x (h x hx)

theorem hostChar_ne_slash (c : Char) (h : isHostChar c = true) : decide (c = '/') = false := by
  apply decide_eq_false
  intro hc
  subst hc
  exact absurd h (by decide)

theorem hostChar_not_hostEnd (c : Char) (h : isHostChar c = true) : (!isHostEnd c) = true := by
  simp only [Bool.not_eq_true']
  unfold isHostChar at h
  unfold isHostEnd
  simp only [Bool.or_eq_true, Bool.and_eq_true, decide_eq_true_eq] at h
  simp only [Bool.or_eq_false_iff, decide_eq_false_iff_not]
  omega

theorem pathChar_ne_qmark (c : Char) (h : isPathChar c = true) : decide (c ≠ '?') = true := by
  apply decide_eq_true
  intro hc
  subst hc
  exact absurd h (by decide)

theorem splitScheme_eq (c : Char) (tok t : List Char) (hc : isSchemeStartChar c = true)
    (htok : tok.all isSchemeChar = true) :
    splitScheme (c :: (tok ++ ':' :: t)) = some (String.mk (c :: tok), t) := by
  rw [splitScheme]
  rw [dropWhileAllConsNeg _ _ _ _ htok (by decide), takeWhileAllConsNeg _ _ _ _ htok (by decide)]
  simp [hc]

theorem parseUrlL_scheme (c : Char) (tok t : List Char) (hc : isSchemeStartChar c = true)
    (htok : tok.all isSchemeChar = true) :
    parseUrlL (c :: (tok ++ ':' :: t))
      = (if String.mk (c :: tok) = "http" ∨ String.mk (c :: tok) = "https" then
           parseSpecialRest (String.mk (c :: tok)) t
         else some ⟨String.mk (c :: tok), none, String.mk t, none⟩) := by
  unfold parseUrlL
  rw [splitScheme_eq c tok t hc htok]
  simp

theorem parseSpecialRest_eq (scheme hst pathS : String) (query : Option String)
    (slashes : List Char) (hsl : slashes.all (fun x => decide (x = '/')) = true)
    (hh1 : hst.data ≠ []) (hh2 : hst.data.all isHostChar = true)
    (hp : ∃ pd, pathS.data = '/' :: pd) (hpc : pathS.data.all isPathChar = true) :
    parseSpecialRest scheme (slashes ++ (hst.data ++ (pathS.data ++
        (match query with | some q => '?' :: q.data | none => []))))
      = some ⟨scheme, some hst, pathS, query⟩ := by
  obtain ⟨hc, ht, hht⟩ : ∃ hc ht, hst.data = hc :: ht := by
    cases hh : hst.data with
    | nil => exact absurd hh hh1
    | cons a b => exact ⟨a, b, rfl⟩
  obtain ⟨pd, hpd⟩ := hp
  have hhc : isHostChar hc = true := by
    rw [hht] at hh2
    simp only [List.all_cons, Bool.and_eq_true] at hh2
    exact hh2.1
  have hallEnd : hst.data.all (fun x => !isHostEnd x) = true :=
    allImp _ _ _ hostChar_not_hostEnd hh2
  have hallq : pathS.data.all (fun x => decide (x ≠ '?')) = true :=
    allImp _ _ _ pathChar_ne_qmark hpc
  unfold parseSpecialRest
  simp only []
  rw [dropWhileAllAppend _ _ _ hsl]
  rw [hht, List.cons_append,
    List.dropWhile_cons_of_neg (by simp [hostChar_ne_slash hc hhc]),
    ← List.cons_append, ← hht]
  rw [hpd, List.cons_append]
  rw [takeWhileAllConsNeg _ _ _ _ hallEnd (by decide)]
  rw [dropWhileAllConsNeg _ _ _ _ hallEnd (by decide)]
  rw [if_neg hh1, if_neg (by rw [hh2]; decide)]
  rw [show ('/' :: (pd ++ (match query with | some q => '?' :: q.data | none => [])))
      = pathS.data ++ (match query with | some q => '?' :: q.data | none => []) from by
    rw [hpd, List.cons_append]]
  cases query with
  | none =>
    rw [takeWhileAllAppend _ _ _ hallq, dropWhileAllAppend _ _ _ hallq]
    simp only [List.takeWhile_nil, List.dropWhile_nil, List.append_nil]
    rw [if_neg (by rw [hpd]; simp), stringMkData, stringMkData]
  | some q =>
    rw [takeWhileAllConsNeg _ _ _ _ hallq (by decide)]
    rw [dropWhileAllConsNeg _ _ _ _ hallq (by decide)]
    rw [if_neg (by rw [hpd]; simp), stringMkData, stringMkData]

theorem parse_toString (u : Url) (h : u.wellFormed = true) : Url.parse u.toString = some u := by
  obtain ⟨scheme, host, path, query⟩ := u
  cases host with
  | none => exact absurd h (by simp [Url.wellFormed])
  | some hst =>
    have hparts : (scheme = "http" ∨ scheme = "https") ∧
        (hst ≠ "" ∧ hst.data.all isHostChar = true) ∧
        path ≠ "" ∧ path.data.head? = some '/' ∧ path.data.all isPathChar = true := by
      unfold Url.wellFormed at h
      simp only [Bool.and_eq_true, Bool.or_eq_true, decide_eq_true_eq] at h
      tauto
    obtain ⟨hsch, ⟨hhne, hhall⟩, hpne, hphead, hpall⟩ := hparts
    have hne : hst.data ≠ [] := by
      intro hd
      apply hhne
      cases hst
      simp only at hd
      subst hd
      rfl
    obtain ⟨pd, hpd⟩ : ∃ pd, path.data = '/' :: pd := by
      cases hp : path.data with
      | nil => rw [hp] at hphead; simp at hphead
      | cons a b =>
        rw [hp] at hphead
        simp only [List.head?_cons, Option.some.injEq] at hphead
        exact ⟨b, by rw [hphead]⟩
    rcases hsch with h1 | h1
    · subst h1
      cases query with
      | none =>
        show parseUrlL ('h' :: 't' :: 't' :: 'p' :: ':' :: '/' :: '/' ::
            ((hst.data ++ path.data) ++ ([] : List Char))) = _
        rw [List.append_assoc]
        rw [show ('h' :: 't' :: 't' :: 'p' :: ':' :: '/' :: '/' :: (hst.data ++ (path.data ++ ([] : List Char))))
            = 'h' :: (['t', 't', 'p'] ++ ':' :: ('/' :: '/' :: (hst.data ++ (path.data ++ ([] : List Char))))) from rfl]
        rw [parseUrlL_scheme 'h' ['t', 't', 'p'] _ (by decide) (by decide)]
        rw [if_pos (Or.inl rfl)]
        exact parseSpecialRest_eq "http" hst path none ['/', '/'] (by decide) hne hhall ⟨pd, hpd⟩ hpall
      | some q =>
        show parseUrlL ('h' :: 't' :: 't' :: 'p' :: ':' :: '/' :: '/' ::
            ((hst.data ++ path.data) ++ ('?' :: q.data))) = _
        rw [List.append_assoc]
        rw [show ('h' :: 't' :: 't' :: 'p' :: ':' :: '/' :: '/' :: (hst.data ++ (path.data ++ ('?' :: q.data))))
            = 'h' :: (['t', 't', 'p'] ++ ':' :: ('/' :: '/' :: (hst.data ++ (path.data ++ ('?' :: q.data))))) from rfl]
        rw [parseUrlL_scheme 'h' ['t', 't', 'p'] _ (by decide) (by decide)]
        rw [if_pos (Or.inl rfl)]
        exact parseSpecialRest_eq "http" hst path (some q) ['/', '/'] (by decide) hne hhall ⟨pd, hpd⟩ hpall
    · subst h1
      cases query with
      | none =>
        show parseUrlL ('h' :: 't' :: 't' :: 'p' :: 's' :: ':' :: '/' :: '/' ::
            ((hst.data ++ path.data) ++ ([] : List Char))) = _
        rw [List.append_assoc]
        rw [show ('h' :: 't' :: 't' :: 'p' :: 's' :: ':' :: '/' :: '/' :: (hst.data ++ (path.data ++ ([] : List Char))))
            = 'h' :: (['t', 't', 'p', 's'] ++ ':' :: ('/' :: '/' :: (hst.data ++ (path.data ++ ([] : List Char))))) from rfl]
        rw [parseUrlL_scheme 'h' ['t', 't', 'p', 's'] _ (by decide) (by decide)]
        rw [if_pos (Or.inr rfl)]
        exact parseSpecialRest_eq "https" hst path none ['/', '/'] (by decide) hne hhall ⟨pd, hpd⟩ hpall
      | some q =>
        show parseUrlL ('h' :: 't' :: 't' :: 'p' :: 's' :: ':' :: '/' :: '/' ::
            ((hst.data ++ path.data) ++ ('?' :: q.data))) = _
        rw [List.append_assoc]
        rw [show ('h' :: 't' :: 't' :: 'p' :: 's' :: ':' :: '/' :: '/' :: (hst.data ++ (path.data ++ ('?' :: q.data))))
            = 'h' :: (['t', 't', 'p', 's'] ++ ':' :: ('/' :: '/' :: (hst.data ++ (path.data ++ ('?' :: q.data))))) from rfl]
        rw [parseUrlL_scheme 'h' ['t', 't', 'p', 's'] _ (by decide) (by decide)]
        rw [if_pos (Or.inr rfl)]
        exact parseSpecialRest_eq "https" hst path (some q) ['/', '/'] (by decide) hne hhall ⟨pd, hpd⟩ hpall

theorem matchSchemeSlashes_eq (c : Char) (tok slashes : List Char) (d : Char) (t2 : List Char)
    (hc : isSchemeStartChar c = true) (htok : tok.all isSchemeChar = true)
    (hsl : slashes.all (fun x => decide (x = '/')) = true) (hne : slashes ≠ [])
    (hd : decide (d = '/') = false) :
    matchSchemeSlashes (c :: (tok ++ ':' :: (slashes ++ d :: t2)))
      = some (String.mk (c :: tok), d :: t2) := by
  obtain ⟨s0, st, hs0⟩ : ∃ s0 st, slashes = s0 :: st := by
    cases hsl2 : slashes with
    | nil => exact absurd hsl2 hne
    | cons a b => exact ⟨a, b, rfl⟩
  subst hs0
  simp only [List.all_cons, Bool.and_eq_true, decide_eq_true_eq] at hsl
  obtain ⟨hs0slash, hstall⟩ := hsl
  subst hs0slash
  unfold matchSchemeSlashes
  rw [splitScheme_eq c tok _ hc htok]
  simp only [List.cons_append, List.head?_cons, Option.some.injEq, if_pos rfl, if_true]
  rw [List.dropWhile_cons_of_pos (by decide)]
  rw [dropWhileAllConsNeg (fun x => decide (x = '/')) st d t2 (by simpa using hstall) hd]

theorem denormL_noslash (c : Char) (rest : List Char) (res : String × List Char)
    (hcne : decide (c = '/') = false)
    (hm : matchSchemeSlashes (c :: rest) = some res) :
    denormL (c :: rest) = res.1.data ++ ':' :: '/' :: '/' :: res.2 := by
  unfold denormL
  split
  · next t heq =>
    rw [List.cons.injEq] at heq
    exact absurd heq.1 (by simpa using hcne)
  · next heq =>
    rw [hm]

theorem denormL_slash (rest : List Char) (res : String × List Char)
    (hm : matchSchemeSlashes rest = some res) :
    denormL ('/' :: rest) = res.1.data ++ ':' :: '/' :: '/' :: res.2 := by
  unfold denormL
  split
  · next t heq =>
    rw [List.cons.injEq] at heq
    rw [← heq.2, hm]
  · next heq =>
    exact absurd rfl (heq rest)

theorem schemeStart_ne_slash (c : Char) (h : isSchemeStartChar c = true) :
    decide (c = '/') = false := by
  apply decide_eq_false
  intro hc
  subst hc
  exact absurd h (by decide)

theorem denorm_core1 (c : Char) (tok : List Char) (d : Char) (T : List Char)
    (hc : isSchemeStartChar c = true) (htok : tok.all isSchemeChar = true)
    (hd : decide (d = '/') = false) :
    denormL (c :: (tok ++ ':' :: '/' :: d :: T)) = (c :: tok) ++ ':' :: '/' :: '/' :: d :: T :=
  denormL_noslash c _ _ (schemeStart_ne_slash c hc)
    (matchSchemeSlashes_eq c tok ['/'] d T hc htok (by decide) (by simp) hd)

theorem denorm_core2 (c : Char) (tok : List Char) (d : Char) (T : List Char)
    (hc : isSchemeStartChar c = true) (htok : tok.all isSchemeChar = true)
    (hd : decide (d = '/') = false) :
    denormL (c :: (tok ++ ':' :: '/' :: '/' :: d :: T)) = (c :: tok) ++ ':' :: '/' :: '/' :: d :: T :=
  denormL_noslash c _ _ (schemeStart_ne_slash c hc)
    (matchSchemeSlashes_eq c tok ['/', '/'] d T hc htok (by decide) (by simp) hd)

theorem denorm_core3 (c : Char) (tok : List Char) (d : Char) (T : List Char)
    (hc : isSchemeStartChar c = true) (htok : tok.all isSchemeChar = true)
    (hd : decide (d = '/') = false) :
    denormL ('/' :: c :: (tok ++ ':' :: '/' :: d :: T)) = (c :: tok) ++ ':' :: '/' :: '/' :: d :: T :=
  denormL_slash _ _
    (matchSchemeSlashes_eq c tok ['/'] d T hc htok (by decide) (by simp) hd)

theorem denorm_core4 (c : Char) (tok : List Char) (d : Char) (T : List Char)
    (hc : isSchemeStartChar c = true) (htok : tok.all isSchemeChar = true)
    (hd : decide (d = '/') = false) :
    denormL ('/' :: c :: (tok ++ ':' :: '/' :: '/' :: d :: T)) = (c :: tok) ++ ':' :: '/' :: '/' :: d :: T :=
  denormL_slash _ _
    (matchSchemeSlashes_eq c tok ['/', '/'] d T hc htok (by decide) (by simp) hd)

theorem embed_data (slash collapse : Bool) (scheme hst path : String) (query : Option String) :
    (embedProxyPath slash collapse ⟨scheme, some hst, path, query⟩).data
      = (if slash then ['/'] else []) ++ (scheme.data ++
          ((if collapse then [':', '/'] else [':', '/', '/']) ++
            (hst.data ++ (path.data ++
              (match query with | some q => '?' :: q.data | none => ([] : List Char)))))) := by
  unfold embedProxyPath
  cases slash <;> cases collapse <;> cases query <;>
    simp [String.data_append, List.append_assoc,
      show ("" : String).data = [] from rfl, show ("/" : String).data = ['/'] from rfl,
      show (":/" : String).data = [':', '/'] from rfl,
      show ("://" : String).data = [':', '/', '/'] from rfl,
      show ("?" : String).data = ['?'] from rfl]

theorem toString_data (scheme hst path : String) (query : Option String) :
    (Url.toString ⟨scheme, some hst, path, query⟩).data
      = scheme.data ++ (':' :: '/' :: '/' :: (hst.data ++ (path.data ++
          (match query with | some q => '?' :: q.data | none => ([] : List Char))))) := by
  unfold Url.toString
  cases query <;>
    simp [String.data_append, List.append_assoc,
      show ("" : String).data = [] from rfl,
      show ("://" : String).data = [':', '/', '/'] from rfl,
      show ("?" : String).data = ['?'] from rfl]

theorem denorm_embed (u : Url) (slash collapse : Bool) (h : u.wellFormed = true) :
    denormL (embedProxyPath slash collapse u).data = (Url.toString u).data := by
  obtain ⟨scheme, host, path, query⟩ := u
  cases host with
  | none => exact absurd h (by simp [Url.wellFormed])
  | some hst =>
    have hparts : (scheme = "http" ∨ scheme = "https") ∧ hst ≠ "" ∧
        hst.data.all isHostChar = true := by
      unfold Url.wellFormed at h
      simp only [Bool.and_eq_true, Bool.or_eq_true, decide_eq_true_eq] at h
      tauto
    obtain ⟨hsch, hhne, hhall⟩ := hparts
    obtain ⟨hc, ht, hh⟩ : ∃ hc ht, hst.data = hc :: ht := by
      cases hd2 : hst.data with
      | nil =>
        exact absurd (by cases hst; simp only at hd2; subst hd2; rfl) hhne
      | cons a b => exact ⟨a, b, rfl⟩
    have hhc : isHostChar hc = true := by
      rw [hh] at hhall
      simp only [List.all_cons, Bool.and_eq_true] at hhall
      exact hhall.1
    have hd := hostChar_ne_slash hc hhc
    clear h hhall hhne
    rw [embed_data, toString_data, hh]
    rcases hsch with h1 | h1 <;> subst h1 <;> cases slash <;> cases collapse
    · exact denorm_core2 'h' ['t', 't', 'p'] hc
        (ht ++ (path.data ++ (match query with | some q => '?' :: q.data | none => ([] : List Char))))
        (by decide) (by decide) hd
    · exact denorm_core1 'h' ['t', 't', 'p'] hc
        (ht ++ (path.data ++ (match query with | some q => '?' :: q.data | none => ([] : List Char))))
        (by decide) (by decide) hd
    · exact denorm_core4 'h' ['t', 't', 'p'] hc
        (ht ++ (path.data ++ (match query with | some q => '?' :: q.data | none => ([] : List Char))))
        (by decide) (by decide) hd
    · exact denorm_core3 'h' ['t', 't', 'p'] hc
        (ht ++ (path.data ++ (match query with | some q => '?' :: q.data | none => ([] : List Char))))
        (by decide) (by decide) hd
    · exact denorm_core2 'h' ['t', 't', 'p', 's'] hc
        (ht ++ (path.data ++ (match query with | some q => '?' :: q.data | none => ([] : List Char))))
        (by decide) (by decide) hd
    · exact denorm_core1 'h' ['t', 't', 'p', 's'] hc
        (ht ++ (path.data ++ (match query with | some q => '?' :: q.data | none => ([] : List Char))))
        (by decide) (by decide) hd
    · exact denorm_core4 'h' ['t', 't', 'p', 's'] hc
        (ht ++ (path.data ++ (match query with | some q => '?' :: q.data | none => ([] : List Char))))
        (by decide) (by decide) hd
    · exact denorm_core3 'h' ['t', 't', 'p', 's'] hc
        (ht ++ (path.data ++ (match query with | some q => '?' :: q.data | none => ([] : List Char))))
        (by decide) (by decide) hd

/-- Claim C7: embedding a well-formed absolute http(s) URL into the proxy
path — with or without a leading slash, and with the client possibly
collapsing `://` to `:/` — denormalizes and parses back to a URL equal to
the original. -/
theorem c7_embed_roundtrip (u : Url) (slash collapse : Bool) (h : u.wellFormed = true) :
    ShakyUrl.tryFrom (embedProxyPath slash collapse u) = Except.ok u := by
  unfold ShakyUrl.tryFrom
  simp only []
  rw [denorm_embed u slash collapse h]
  rw [show String.mk u.toString.data = u.toString from stringMkData _]
  rw [parse_toString u h]
  have hsch : u.scheme = "http" ∨ u.scheme = "https" := by
    obtain ⟨scheme, host, path, query⟩ := u
    unfold Url.wellFormed at h
    simp only [Bool.and_eq_true, Bool.or_eq_true, decide_eq_true_eq] at h
    tauto
  rcases hsch with h1 | h1 <;> simp [h1]

/-- Witness for C7 at a concrete URL and the collapsed, slash-prefixed
embedding. -/
theorem c7_embed_roundtrip_witness :
    Url.wellFormed ⟨"https", some "example.com", "/a/b", some "x=1"⟩ = true ∧
    ShakyUrl.tryFrom "/https:/example.com/a/b?x=1"
      = Except.ok ⟨"https", some "example.com", "/a/b", some "x=1"⟩ :=
  ⟨by decide,
   by
    have h := c7_embed_roundtrip ⟨"https", some "example.com", "/a/b", some "x=1"⟩
      true true (by decide)
    rw [show embedProxyPath true true ⟨"https", some "example.com", "/a/b", some "x=1"⟩
        = "/https:/example.com/a/b?x=1" from by decide] at h
    exact h⟩

theorem all_takeWhile {α : Type} (p : α → Bool) (l : List α) : (l.takeWhile p).all p = true := by
  induction l with
  | nil => rfl
  | cons a t ih =>
    by_cases hp : p a = true
    · rw [List.takeWhile_cons_of_pos hp]
      simp [hp, ih]
    · rw [List.takeWhile_cons_of_neg (by simp [hp])]
      rfl

theorem splitScheme_inv (l : List Char) (sch : String) (r : List Char)
    (h : splitScheme l = some (sch, r)) :
    ∃ c tok, l = c :: (tok ++ ':' :: r) ∧ isSchemeStartChar c = true ∧
      tok.all isSchemeChar = true ∧ sch = String.mk (c :: tok) := by
  cases l with
  | nil => simp [splitScheme] at h
  | cons c rest =>
    unfold splitScheme at h
    simp only [] at h
    by_cases hc : isSchemeStartChar c = true
    · rw [if_pos hc] at h
      split at h
      · next r' heq =>
        simp only [Option.some.injEq, Prod.mk.injEq] at h
        obtain ⟨hsch, hr⟩ := h
        subst hr
        refine ⟨c, rest.takeWhile isSchemeChar, ?_, hc, all_takeWhile _ _, hsch.symm⟩
        have hrest : rest = rest.takeWhile isSchemeChar ++ rest.dropWhile isSchemeChar :=
          (List.takeWhile_append_dropWhile _ _).symm
        rw [heq] at hrest
        rw [← hrest]
      · next => simp at h
    · rw [if_neg hc] at h
      simp at h

theorem matchSchemeSlashes_none (l : List Char) (sch : String) (r : List Char)
    (hsp : splitScheme l = some (sch, r)) (hhead : r.head? ≠ some '/') :
    matchSchemeSlashes l = none := by
  unfold matchSchemeSlashes
  rw [hsp]
  simp [hhead]

theorem matchSchemeSlashes_some (l : List Char) (sch : String) (r2 : List Char)
    (hsp : splitScheme l = some (sch, '/' :: r2)) :
    matchSchemeSlashes l
      = some (sch, ('/' :: r2).dropWhile (fun x => decide (x = '/'))) := by
  unfold matchSchemeSlashes
  rw [hsp]
  simp

theorem denormL_noslash_none (c : Char) (rest : List Char)
    (hcne : decide (c = '/') = false)
    (hm : matchSchemeSlashes (c :: rest) = none) :
    denormL (c :: rest) = c :: rest := by
  unfold denormL
  split
  · next t heq =>
    rw [List.cons.injEq] at heq
    exact absurd heq.1 (by simpa using hcne)
  · next => rw [hm]

theorem parseSpecialRest_host (scheme : String) (r : List Char) (u : Url)
    (h : parseSpecialRest scheme r = some u) :
    u.scheme = scheme ∧ u.host.isSome = true := by
  unfold parseSpecialRest at h
  simp only [] at h
  split_ifs at h with h1 h2 h3 <;> simp_all <;> rw [← h] <;> exact ⟨rfl, rfl⟩

theorem parse_special_host (s : String) (u : Url) (hp : Url.parse s = some u)
    (hsch : u.scheme = "https" ∨ u.scheme = "http") : u.host.isSome = true := by
  unfold Url.parse parseUrlL at hp
  cases hsp : splitScheme s.data with
  | none => rw [hsp] at hp; simp at hp
  | some pr =>
    obtain ⟨sch, r⟩ := pr
    rw [hsp] at hp
    simp only [] at hp
    by_cases hb : (decide (sch = "http") || decide (sch = "https")) = true
    · rw [if_pos hb] at hp
      exact (parseSpecialRest_host _ _ _ hp).2
    · rw [if_neg hb] at hp
      simp only [Option.some.injEq] at hp
      subst hp
      simp only [Bool.or_eq_true, decide_eq_true_eq, not_or] at hb
      simp only [] at hsch
      rcases hsch with h1 | h1 <;> [exact absurd h1 hb.2; exact absurd h1 hb.1]

/-- Claim C9: every URL the resolver accepts (the extractor returned `ok`)
has a `Some` host, so `url.host().unwrap()` on the miss path of
`db::execute` cannot panic. -/
theorem c9_host_some (p q : String) (u : Url)
    (h : ShakyUrl.fromRequest p q = Except.ok u) : u.host.isSome = true := by
  unfold ShakyUrl.fromRequest at h
  simp only [] at h
  cases hp : Url.parse (String.mk (denormL ((p ++ (if q = "" then "" else "?" ++ q)).data))) with
  | none => rw [hp] at h; simp at h
  | some u2 =>
    rw [hp] at h
    simp only [] at h
    by_cases hb : (u2.scheme = "https" ∨ u2.scheme = "http")
    · have hcond : (!(decide (u2.scheme = "https") || decide (u2.scheme = "http"))) = false := by
        rcases hb with h1 | h1 <;> simp [h1]
      rw [if_neg (by rw [hcond]; simp)] at h
      simp only [Except.ok.injEq] at h
      subst h
      exact parse_special_host _ _ hp hb
    · have hcond : (!(decide (u2.scheme = "https") || decide (u2.scheme = "http"))) = true := by
        rw [not_or] at hb
        simp [hb.1, hb.2]
      rw [if_pos hcond] at h
      simp at h

/-- Witness for C9 at a concrete request path. -/
theorem c9_host_some_witness :
    ShakyUrl.fromRequest "https:/example.com" ""
        = Except.ok ⟨"https", some "example.com", "/", none⟩ ∧
    (⟨"https", some "example.com", "/", none⟩ : Url).host.isSome = true :=
  ⟨by decide,
   c9_host_some "https:/example.com" "" ⟨"https", some "example.com", "/", none⟩ (by decide)⟩

/-- Claim C8: every input string that parses as an absolute URL whose
scheme is neither http nor https is rejected by target resolution
(`TryFrom<&str> for ShakyUrl`) with the disallowed-scheme error naming the
offending scheme. -/
theorem c8_disallowed_scheme (s : String) (u : Url) (hp : Url.parse s = some u)
    (h1 : u.scheme ≠ "http") (h2 : u.scheme ≠ "https") :
    ShakyUrl.tryFrom s = Except.error ("Unknown scheme: " ++ u.scheme) := by
  obtain ⟨sch, r, hsp, hurest⟩ : ∃ sch r, splitScheme s.data = some (sch, r) ∧
      u = ⟨sch, none, String.mk r, none⟩ := by
    unfold Url.parse parseUrlL at hp
    cases hsp : splitScheme s.data with
    | none => rw [hsp] at hp; simp at hp
    | some pr =>
      obtain ⟨sch, r⟩ := pr
      rw [hsp] at hp
      simp only [] at hp
      by_cases hb : (decide (sch = "http") || decide (sch = "https")) = true
      · rw [if_pos hb] at hp
        have hps := (parseSpecialRest_host _ _ _ hp).1
        simp only [Bool.or_eq_true, decide_eq_true_eq] at hb
        rcases hb with hx | hx
        · exact absurd (hps.trans hx) h1
        · exact absurd (hps.trans hx) h2
      · rw [if_neg hb] at hp
        simp only [Option.some.injEq] at hp
        exact ⟨sch, r, rfl, hp.symm⟩
  have husch : u.scheme = sch := by rw [hurest]
  obtain ⟨c, tok, hl, hc, htok, hschmk⟩ := splitScheme_inv _ _ _ hsp
  have hcne : decide (c = '/') = false := schemeStart_ne_slash c hc
  have hnotsp : ¬(String.mk (c :: tok) = "http" ∨ String.mk (c :: tok) = "https") := by
    rw [← hschmk, ← husch]
    tauto
  have hcondU : ∀ w : Url, w.scheme = sch →
      (!(decide (w.scheme = "https") || decide (w.scheme = "http"))) = true := by
    intro w hw
    have hwh : w.scheme ≠ "http" := by rw [hw, ← husch]; exact h1
    have hws : w.scheme ≠ "https" := by rw [hw, ← husch]; exact h2
    simp [hwh, hws]
  unfold ShakyUrl.tryFrom
  simp only []
  by_cases hslash : r.head? = some '/'
  · obtain ⟨r2, hr2⟩ : ∃ r2, r = '/' :: r2 := by
      cases r with
      | nil => simp at hslash
      | cons a b =>
        simp only [List.head?_cons, Option.some.injEq] at hslash
        exact ⟨b, by rw [hslash]⟩
    subst hr2
    have hm : matchSchemeSlashes s.data
        = some (sch, ('/' :: r2).dropWhile (fun x => decide (x = '/'))) :=
      matchSchemeSlashes_some _ _ _ hsp
    have hden : denormL s.data
        = sch.data ++ ':' :: '/' :: '/' :: (('/' :: r2).dropWhile (fun x => decide (x = '/'))) := by
      rw [hl]
      exact denormL_noslash c _ _ hcne (by rw [← hl]; exact hm)
    rw [hden]
    have hparse : parseUrlL (sch.data ++ ':' :: '/' :: '/'
          :: (('/' :: r2).dropWhile (fun x => decide (x = '/'))))
        = some ⟨String.mk (c :: tok), none,
            String.mk ('/' :: '/' :: (('/' :: r2).dropWhile (fun x => decide (x = '/')))), none⟩ := by
      rw [hschmk]
      rw [show (String.mk (c :: tok)).data = c :: tok from rfl]
      rw [List.cons_append]
      rw [parseUrlL_scheme c tok _ hc htok]
      rw [if_neg hnotsp]
    rw [show Url.parse (String.mk (sch.data ++ ':' :: '/' :: '/'
          :: (('/' :: r2).dropWhile (fun x => decide (x = '/')))))
        = parseUrlL (sch.data ++ ':' :: '/' :: '/'
          :: (('/' :: r2).dropWhile (fun x => decide (x = '/')))) from rfl]
    rw [hparse]
    simp only []
    rw [if_pos (hcondU ⟨String.mk (c :: tok), none,
        String.mk ('/' :: '/' :: (('/' :: r2).dropWhile (fun x => decide (x = '/')))), none⟩
        hschmk.symm)]
    rw [← hschmk, ← husch]
  · have hm : matchSchemeSlashes s.data = none := matchSchemeSlashes_none _ _ _ hsp hslash
    have hden : denormL s.data = s.data := by
      rw [hl]
      exact denormL_noslash_none c _ hcne (by rw [← hl]; exact hm)
    rw [hden, stringMkData]
    rw [hp]
    simp only []
    rw [if_pos (hcondU u husch)]

/-- Witness for C8 at a concrete ftp URL. -/
theorem c8_disallowed_scheme_witness :
    Url.parse "ftp://x" = some ⟨"ftp", none, "//x", none⟩ ∧
    ShakyUrl.tryFrom "ftp://x" = Except.error ("Unknown scheme: " ++ "ftp") :=
  ⟨by decide,
   c8_disallowed_scheme "ftp://x" ⟨"ftp", none, "//x", none⟩ (by decide) (by decide) (by decide)⟩

/-! ### Cache store lemmas and claims C1-C3 -/

/-- The eligibility condition of claim C1, in the spec's words: exact
(method, url) match, last_update within ttl_seconds of the current time
when ttl_seconds > 0 (any age when 0), and the status-class filter. -/
def specEligible (s : CacheSettings) (m u : String) (now : Int) (r : Row) : Prop :=
  r.method = m ∧ r.url = u ∧
  (0 < s.ttl → now - r.last_update < (s.ttl : Int)) ∧
  (r.status_code < 400 ∨
    (s.client_errors = true ∧ 400 ≤ r.status_code ∧ r.status_code ≤ 499) ∨
    (s.server_errors = true ∧ 500 ≤ r.status_code ∧ r.status_code ≤ 599))

instance (s : CacheSettings) (m u : String) (now : Int) (r : Row) :
    Decidable (specEligible s m u now r) := by
  unfold specEligible
  infer_instance

theorem rowMatches_iff (s : CacheSettings) (m u : String) (now : Int) (r : Row) :
    rowMatches s m u now r = true ↔ specEligible s m u now r := by
  have httliff : ((if s.ttl = 0 then true
        else decide (now - (s.ttl : Int) < r.last_update)) = true)
      ↔ (0 < s.ttl → now - r.last_update < (s.ttl : Int)) := by
    by_cases httl : s.ttl = 0
    · simp [httl]
    · have hpos : 0 < s.ttl := Nat.pos_of_ne_zero httl
      simp only [if_neg httl, decide_eq_true_eq, hpos, forall_const]
      omega
  have hstatiff : (statusFilter s r.status_code = true)
      ↔ (r.status_code < 400 ∨
          (s.client_errors = true ∧ 400 ≤ r.status_code ∧ r.status_code ≤ 499) ∨
          (s.server_errors = true ∧ 500 ≤ r.status_code ∧ r.status_code ≤ 599)) := by
    unfold statusFilter
    simp only [Bool.or_eq_true, Bool.and_eq_true, decide_eq_true_eq]
    tauto
  unfold rowMatches specEligible
  simp only [Bool.and_eq_true, decide_eq_true_eq]
  rw [httliff, hstatiff]
  constructor
  · rintro ⟨⟨⟨ha, hb⟩, hc⟩, hd⟩
    exact ⟨ha, hb, hc, hd⟩
  · rintro ⟨ha, hb, hc, hd⟩
    exact ⟨⟨⟨ha, hb⟩, hc⟩, hd⟩

theorem headSomeMem {α : Type} (l : List α) (r : α) (h : l.head? = some r) : r ∈ l :=
  List.mem_of_mem_head? (by rw [h]; rfl)

theorem filterHeadOfMem {α : Type} (l : List α) (p : α → Bool) (r : α) (hr : r ∈ l)
    (hp : p r = true) (huniq : ∀ x ∈ l, p x = true → x = r) :
    (l.filter p).head? = some r := by
  have hmem : r ∈ l.filter p := List.mem_filter.mpr ⟨hr, hp⟩
  cases hf : l.filter p with
  | nil => rw [hf] at hmem; simp at hmem
  | cons a t =>
    have ha : a ∈ l.filter p := by
      rw [hf]
      exact List.mem_cons_self a t
    have hax := List.mem_filter.mp ha
    simp [huniq a hax.1 hax.2]

/-- Claim C1: for a store with unique (method, url) keys and a stored row
r, the read query returns r exactly when r's method and url equal the
requested ones, its last_update is within ttl_seconds of the current time
when ttl_seconds > 0 (any age when ttl_seconds = 0), and its status passes
the status-class filter (status < 400, or client errors allowed and
400..=499, or server errors allowed and 500..=599). -/
theorem c1_lookup_iff (s : CacheSettings) (store : List Row) (m u : String) (now : Int)
    (r : Row) (hnd : (store.map rowKey).Nodup) (hr : r ∈ store) :
    lookupRow s store m u now = some r ↔ specEligible s m u now r := by
  constructor
  · intro h
    have hmem : r ∈ store.filter (rowMatches s m u now) := headSomeMem _ _ h
    exact (rowMatches_iff s m u now r).mp (List.mem_filter.mp hmem).2
  · intro h
    refine filterHeadOfMem store _ r hr ((rowMatches_iff s m u now r).mpr h) ?_
    intro x hx hpx
    have h1 := (rowMatches_iff s m u now x).mp hpx
    apply List.inj_on_of_nodup_map hnd hx hr
    unfold rowKey
    rw [h1.1, h1.2.1, ← h.1, ← h.2.1]

/-- Witness for C1 at a one-row store and a permissionless policy. -/
theorem c1_lookup_iff_witness :
    specEligible ⟨false, false, 0⟩ "GET" "http://h/" 60 ⟨"GET", "http://h/", [], "", 200, 50⟩ ∧
    lookupRow ⟨false, false, 0⟩ [⟨"GET", "http://h/", [], "", 200, 50⟩] "GET" "http://h/" 60
      = some ⟨"GET", "http://h/", [], "", 200, 50⟩ :=
  ⟨by decide,
   (c1_lookup_iff ⟨false, false, 0⟩ [⟨"GET", "http://h/", [], "", 200, 50⟩] "GET" "http://h/"
      60 ⟨"GET", "http://h/", [], "", 200, 50⟩ (by decide) (by decide)).mpr (by decide)⟩

theorem upsertRow_mem (store : List Row) (r : Row) : r ∈ upsertRow store r := by
  unfold upsertRow
  split_ifs with h
  · obtain ⟨x, hx, hkey⟩ := List.any_eq_true.mp h
    simp only [Bool.and_eq_true, decide_eq_true_eq] at hkey
    refine List.mem_map.mpr ⟨x, hx, ?_⟩
    rw [if_pos ⟨hkey.1, hkey.2⟩]
    obtain ⟨xm, xu, xc, xh, xs, xl⟩ := x
    obtain ⟨rm, ru, rc, rh, rs, rl⟩ := r
    simp only [] at hkey
    simp [hkey.1, hkey.2]
  · simp

theorem upsertRow_key_eq (store : List Row) (r x : Row) (hx : x ∈ upsertRow store r)
    (hk : x.method = r.method ∧ x.url = r.url) : x = r := by
  unfold upsertRow at hx
  split_ifs at hx with h
  · obtain ⟨y, hy, hyx⟩ := List.mem_map.mp hx
    by_cases hky : y.method = r.method ∧ y.url = r.url
    · rw [if_pos hky] at hyx
      rw [← hyx]
      obtain ⟨ym, yu, yc, yh, ys, yl⟩ := y
      obtain ⟨rm, ru, rc, rh, rs, rl⟩ := r
      simp only [] at hky
      simp [hky.1, hky.2]
    · rw [if_neg hky] at hyx
      rw [← hyx] at hk
      exact absurd hk hky
  · rcases List.mem_append.mp hx with h1 | h1
    · exact absurd (List.any_eq_true.mpr ⟨x, h1, by simp [hk.1, hk.2]⟩) h
    · simpa using h1

theorem lookup_upsert_statusfail (s : CacheSettings) (store : List Row) (rr : Row)
    (hstat : statusFilter s rr.status_code = false) (now2 : Int) :
    lookupRow s (upsertRow store rr) rr.method rr.url now2 = none := by
  unfold lookupRow
  rw [List.head?_eq_none_iff, List.filter_eq_nil_iff]
  intro x hx hmatch
  unfold rowMatches at hmatch
  simp only [Bool.and_eq_true, decide_eq_true_eq] at hmatch
  have hxe : x = rr := upsertRow_key_eq store rr x hx ⟨hmatch.1.1.1, hmatch.1.1.2⟩
  have h2 := hmatch.2
  rw [hxe, hstat] at h2
  exact absurd h2 (by simp)

/-- Claim C2: on a cache miss the fetched origin response is persisted via
upsert regardless of the active policy — the row written for the request
key is a member of the new store (inserted, or overwriting the previous
row's content, headers and status with last_update reset to the write
time) — and in particular an origin 503 under server_errors = false is
still stored, although a subsequent read under the same policy misses at
every later time. -/
theorem c2_unconditional_upsert (s : CacheSettings) (store : List Row) (m : String)
    (reqHeaders : List (String × String)) (u : Url) (origin : OriginResponse) (now : Int)
    (hmiss : lookupRow s store m u.toString now = none) :
    execute s DbFates.allOk store m reqHeaders u origin now
        = ExecResult.success (missEntry m u origin now).render
            (upsertRow store ((missEntry m u origin now).toRow now))
            (some (buildOutbound reqHeaders u))
      ∧ ((missEntry m u origin now).toRow now)
          ∈ upsertRow store ((missEntry m u origin now).toRow now)
      ∧ (origin.status = 503 → s.server_errors = false →
          ∀ now2 : Int, lookupRow s (upsertRow store ((missEntry m u origin now).toRow now))
            m u.toString now2 = none) := by
  refine ⟨?_, upsertRow_mem _ _, ?_⟩
  · unfold execute
    rw [hmiss]
    simp [DbFates.allOk]
  · intro h503 hse now2
    have hst : ((missEntry m u origin now).toRow now).status_code = 503 := by
      show sqliteIntOfText (statusAsStr origin.status) = 503
      rw [h503]
      decide
    have hstatf : statusFilter s ((missEntry m u origin now).toRow now).status_code = false := by
      rw [hst]
      unfold statusFilter
      rw [hse]
      simp
    have hrest := lookup_upsert_statusfail s store ((missEntry m u origin now).toRow now)
      hstatf now2
    exact hrest

/-- Witness for C2: a 503 origin response under server_errors = false is
stored on a miss and invisible to a subsequent read. -/
theorem c2_unconditional_upsert_witness :
    execute ⟨true, false, 0⟩ DbFates.allOk [] "GET" [] ⟨"http", some "h", "/", none⟩
        ⟨503, [], [104]⟩ 5
      = ExecResult.success (missEntry "GET" ⟨"http", some "h", "/", none⟩ ⟨503, [], [104]⟩ 5).render
          (upsertRow []
            ((missEntry "GET" ⟨"http", some "h", "/", none⟩ ⟨503, [], [104]⟩ 5).toRow 5))
          (some (buildOutbound [] ⟨"http", some "h", "/", none⟩))
    ∧ lookupRow ⟨true, false, 0⟩
        (upsertRow [] ((missEntry "GET" ⟨"http", some "h", "/", none⟩ ⟨503, [], [104]⟩ 5).toRow 5))
        "GET" (⟨"http", some "h", "/", none⟩ : Url).toString 99 = none :=
  ⟨(c2_unconditional_upsert ⟨true, false, 0⟩ [] "GET" [] ⟨"http", some "h", "/", none⟩
      ⟨503, [], [104]⟩ 5 (by decide)).1,
   (c2_unconditional_upsert ⟨true, false, 0⟩ [] "GET" [] ⟨"http", some "h", "/", none⟩
      ⟨503, [], [104]⟩ 5 (by decide)).2.2 rfl rfl 99⟩

/-- Claim C3: writing a CacheEntry for key K (any content bytes, any header
multimap with per-name ordered value lists, any valid status) and looking K
up with ttl_seconds = 0 under a policy whose status filters admit the
entry's status class returns an entry equal to the one written: content,
the headers multimap and the status are reconstructed exactly through the
serialize/store/deserialize round trip. -/
theorem c3_write_read_roundtrip (s : CacheSettings) (store : List Row) (e : Entry)
    (now now2 : Int)
    (httl : s.ttl = 0) (hstat : statusFilter s (e.status_code : Int) = true)
    (hmeth : isMethodToken e.method = true) (hurl : e.url.wellFormed = true)
    (hkeys : (e.headers.map (fun p => p.1)).Nodup)
    (hrange : 100 ≤ e.status_code ∧ e.status_code ≤ 999)
    (hlast : e.last_update = now) :
    (lookupRow s (upsertRow store (e.toRow now)) e.method e.url.toString now2).bind
        (fun r => (Entry.tryFromRow r).toOption) = some e := by
  obtain ⟨hr1, hr2⟩ := hrange
  have hlk : lookupRow s (upsertRow store (e.toRow now)) e.method e.url.toString now2
      = some (e.toRow now) := by
    unfold lookupRow
    refine filterHeadOfMem _ _ _ (upsertRow_mem _ _) ?_ ?_
    · unfold rowMatches
      rw [show (e.toRow now).method = e.method from rfl,
        show (e.toRow now).url = e.url.toString from rfl,
        show (e.toRow now).status_code = (e.status_code : Int) from
          sqliteIntOfText_statusAsStr _, httl, hstat]
      simp
    · intro x hx hpx
      unfold rowMatches at hpx
      simp only [Bool.and_eq_true, decide_eq_true_eq] at hpx
      exact upsertRow_key_eq store (e.toRow now) x hx ⟨hpx.1.1.1, hpx.1.1.2⟩
  rw [hlk]
  rw [show (some (e.toRow now)).bind (fun r => (Entry.tryFromRow r).toOption)
      = (Entry.tryFromRow (e.toRow now)).toOption from rfl]
  have hrow : e.toRow now
      = ⟨e.method, e.url.toString, e.content, serHeadersJson e.headers, (e.status_code : Int), now⟩ := by
    unfold Entry.toRow
    rw [sqliteIntOfText_statusAsStr]
  rw [hrow]
  unfold Entry.tryFromRow
  simp only []
  rw [hmeth]
  simp only [Bool.not_true, Bool.false_eq_true, if_false]
  rw [parse_toString e.url hurl, parseHeadersJson_ser]
  simp only []
  rw [if_neg (by omega), if_neg (by omega)]
  obtain ⟨em, eu, ec, eh, es, el⟩ := e
  simp only [] at hlast
  subst hlast
  simp [Except.toOption]

/-- Witness for C3 at a concrete entry with a multi-valued header. -/
theorem c3_write_read_roundtrip_witness :
    (lookupRow ⟨true, false, 0⟩
        (upsertRow []
          ((⟨"GET", ⟨"http", some "h", "/a", none⟩, [104, 105],
            [("x-a", ["1", "2"])], 200, 5⟩ : Entry).toRow 5))
        "GET" (Url.toString ⟨"http", some "h", "/a", none⟩) 7).bind
      (fun r => (Entry.tryFromRow r).toOption)
    = some ⟨"GET", ⟨"http", some "h", "/a", none⟩, [104, 105],
        [("x-a", ["1", "2"])], 200, 5⟩ :=
  c3_write_read_roundtrip ⟨true, false, 0⟩ []
    ⟨"GET", ⟨"http", some "h", "/a", none⟩, [104, 105], [("x-a", ["1", "2"])], 200, 5⟩
    5 7 (by decide) (by decide) (by decide) (by decide) (by decide)
    ⟨by decide, by decide⟩ (by decide)

/-- Claim C4, counterexample: an inbound OPTIONS request whose embedded URL
fails to resolve (path `http:/` denormalizes to `http://`, which has no
host and does not parse) is answered by the `ShakyUrl` extractor's error
rendering — status 500 without the CORS headers — not by the OPTIONS
short-circuit, so OPTIONS requests do not always receive 200. -/
theorem c4_options_counterexample :
    handle ⟨true, true, 0⟩ DbFates.allOk [] "OPTIONS" "http:/" "" [] ⟨200, [], []⟩ 0
      = HandlerResult.resolveError ShakyUrlError.parseErr
    ∧ (handle ⟨true, true, 0⟩ DbFates.allOk [] "OPTIONS" "http:/" "" [] ⟨200, [], []⟩ 0).response
      = some { status := 500, headers := [], body := [] }
    ∧ ¬ ((handle ⟨true, true, 0⟩ DbFates.allOk [] "OPTIONS" "http:/" "" [] ⟨200, [], []⟩
          0).response.map ResponseM.status = some 200) := by
  decide

/-- Claim C4, amended: once the `ShakyUrl` extractor has succeeded, an
OPTIONS request is short-circuited to the CORS response — status 200 with
both `access-control-allow-origin: *` and `access-control-allow-headers:
*`, the store untouched, `execute` never reached — and no other method
receives this treatment: any other method goes through `db::execute`. -/
theorem c4_options_amended (s : CacheSettings) (f : DbFates) (store : List Row)
    (method pathPart queryString : String) (reqHeaders : List (String × String))
    (origin : OriginResponse) (now : Int) (u : Url)
    (hres : ShakyUrl.fromRequest pathPart queryString = Except.ok u) :
    (method = "OPTIONS" →
      handle s f store method pathPart queryString reqHeaders origin now
        = HandlerResult.shortCircuit corsResponse
      ∧ (handle s f store method pathPart queryString reqHeaders origin now).storeOf store
        = store
      ∧ corsResponse.status = 200
      ∧ getAll corsResponse.headers "access-control-allow-origin" = ["*"]
      ∧ getAll corsResponse.headers "access-control-allow-headers" = ["*"])
    ∧ (¬ method = "OPTIONS" →
      handle s f store method pathPart queryString reqHeaders origin now
        = HandlerResult.fromExecute (execute s f store method reqHeaders u origin now)) := by
  unfold handle
  rw [hres]
  simp only []
  constructor
  · intro hm
    rw [if_pos hm]
    exact ⟨rfl, rfl, rfl, by decide, by decide⟩
  · intro hm
    rw [if_neg hm]

/-- Witness for C4's amended theorem at a resolvable URL, instantiating
both the OPTIONS branch and a non-OPTIONS method. -/
theorem c4_options_amended_witness :
    ((("OPTIONS" : String) = "OPTIONS" →
      handle ⟨true, true, 0⟩ DbFates.allOk [] "OPTIONS" "http:/h" "" [] ⟨200, [], []⟩ 0
        = HandlerResult.shortCircuit corsResponse
      ∧ (handle ⟨true, true, 0⟩ DbFates.allOk [] "OPTIONS" "http:/h" "" [] ⟨200, [], []⟩
          0).storeOf [] = []
      ∧ corsResponse.status = 200
      ∧ getAll corsResponse.headers "access-control-allow-origin" = ["*"]
      ∧ getAll corsResponse.headers "access-control-allow-headers" = ["*"])
    ∧ (¬ ("OPTIONS" : String) = "OPTIONS" →
      handle ⟨true, true, 0⟩ DbFates.allOk [] "OPTIONS" "http:/h" "" [] ⟨200, [], []⟩ 0
        = HandlerResult.fromExecute
            (execute ⟨true, true, 0⟩ DbFates.allOk [] "OPTIONS" []
              ⟨"http", some "h", "/", none⟩ ⟨200, [], []⟩ 0)))
    ∧ ((("GET" : String) = "OPTIONS" →
      handle ⟨true, true, 0⟩ DbFates.allOk [] "GET" "http:/h" "" [] ⟨200, [], []⟩ 0
        = HandlerResult.shortCircuit corsResponse
      ∧ (handle ⟨true, true, 0⟩ DbFates.allOk [] "GET" "http:/h" "" [] ⟨200, [], []⟩
          0).storeOf [] = []
      ∧ corsResponse.status = 200
      ∧ getAll corsResponse.headers "access-control-allow-origin" = ["*"]
      ∧ getAll corsResponse.headers "access-control-allow-headers" = ["*"])
    ∧ (¬ ("GET" : String) = "OPTIONS" →
      handle ⟨true, true, 0⟩ DbFates.allOk [] "GET" "http:/h" "" [] ⟨200, [], []⟩ 0
        = HandlerResult.fromExecute
            (execute ⟨true, true, 0⟩ DbFates.allOk [] "GET" []
              ⟨"http", some "h", "/", none⟩ ⟨200, [], []⟩ 0))) :=
  ⟨c4_options_amended ⟨true, true, 0⟩ DbFates.allOk [] "OPTIONS" "http:/h" "" []
      ⟨200, [], []⟩ 0 ⟨"http", some "h", "/", none⟩ (by decide),
   c4_options_amended ⟨true, true, 0⟩ DbFates.allOk [] "GET" "http:/h" "" []
      ⟨200, [], []⟩ 0 ⟨"http", some "h", "/", none⟩ (by decide)⟩

/-- Claim C5, counterexample: a write (upsert) failure on the miss path is
not surfaced as an internal error response — `stmt.execute(..).unwrap()`
panics, so the request ends fatally with no response at all, and likewise
the read-statement `prepare_cached(..).unwrap()`. Here the upsert fails on
a miss: the result is the fatal outcome, distinct from the internal-error
outcome, and the rendered response is `none`. -/
theorem c5_failures_counterexample :
    execute ⟨true, false, 0⟩ ⟨true, true, true, true, false⟩ [] "GET" []
        ⟨"http", some "h", "/", none⟩ ⟨200, [], []⟩ 0
      = ExecResult.fatal []
    ∧ ¬ (execute ⟨true, false, 0⟩ ⟨true, true, true, true, false⟩ [] "GET" []
        ⟨"http", some "h", "/", none⟩ ⟨200, [], []⟩ 0
      = ExecResult.dbError [])
    ∧ (HandlerResult.fromExecute (execute ⟨true, false, 0⟩ ⟨true, true, true, true, false⟩
        [] "GET" [] ⟨"http", some "h", "/", none⟩ ⟨200, [], []⟩ 0)).response = none := by
  decide

/-- Claim C5, amended: of the five fallible store operations in `execute`,
pool acquisition and read-query execution failures are surfaced as internal
error responses (`map_err(ErrorInternalServerError)`), while failures of
read-statement preparation, write-statement preparation, and the upsert
itself are `unwrap()` panics — fatal, producing no error response. None is
retried and none is silently swallowed. -/
theorem c5_failures_amended (s : CacheSettings) (f : DbFates) (store : List Row)
    (method : String) (reqHeaders : List (String × String)) (u : Url)
    (origin : OriginResponse) (now : Int) :
    (f.poolOk = false →
      execute s f store method reqHeaders u origin now = ExecResult.dbError store)
    ∧ (f.poolOk = true → f.prepareReadOk = false →
      execute s f store method reqHeaders u origin now = ExecResult.fatal store)
    ∧ (f.poolOk = true → f.prepareReadOk = true → f.queryOk = false →
      execute s f store method reqHeaders u origin now = ExecResult.dbError store)
    ∧ (f.poolOk = true → f.prepareReadOk = true → f.queryOk = true →
      lookupRow s store method u.toString now = none → f.prepareWriteOk = false →
      execute s f store method reqHeaders u origin now = ExecResult.fatal store)
    ∧ (f.poolOk = true → f.prepareReadOk = true → f.queryOk = true →
      lookupRow s store method u.toString now = none → f.prepareWriteOk = true →
      f.upsertOk = false →
      execute s f store method reqHeaders u origin now = ExecResult.fatal store) := by
  refine ⟨?_, ?_, ?_, ?_, ?_⟩
  · intro h1
    unfold execute
    simp [h1]
  · intro h1 h2
    unfold execute
    simp [h1, h2]
  · intro h1 h2 h3
    unfold execute
    simp [h1, h2, h3]
  · intro h1 h2 h3 hlk h4
    unfold execute
    simp [h1, h2, h3, hlk, h4]
  · intro h1 h2 h3 hlk h4 h5
    unfold execute
    simp [h1, h2, h3, hlk, h4, h5]

/-- Witness for C5's amended theorem: a failing read-statement preparation
ends fatally on a concrete request. -/
theorem c5_failures_amended_witness :
    execute ⟨true, false, 0⟩ ⟨true, false, true, true, true⟩ [] "GET" []
        ⟨"http", some "h", "/", none⟩ ⟨200, [], []⟩ 0 = ExecResult.fatal [] :=
  (c5_failures_amended ⟨true, false, 0⟩ ⟨true, false, true, true, true⟩ [] "GET" []
      ⟨"http", some "h", "/", none⟩ ⟨200, [], []⟩ 0).2.1 rfl rfl

/-! ### Header-map lemmas for the outbound/capture paths -/

theorem getAll_insertHeader (hs : List (String × String)) (n m v : String) :
    getAll (insertHeader hs m v) n = if m = n then [v] else getAll hs n := by
  induction hs with
  | nil =>
    by_cases h : m = n <;> simp [getAll, insertHeader, h]
  | cons p t ih =>
    by_cases hp : p.1 = m
    · have h1 : insertHeader (p :: t) m v = insertHeader t m v := by
        simp [insertHeader, hp]
      rw [h1, ih]
      by_cases h : m = n
      · rw [if_pos h, if_pos h]
      · rw [if_neg h, if_neg h]
        have hpn : ¬ p.1 = n := by rw [hp]; exact h
        simp [getAll, List.filter_cons, hpn]
    · have h1 : insertHeader (p :: t) m v = p :: insertHeader t m v := by
        simp [insertHeader, List.filter_cons, hp]
      rw [h1]
      by_cases h : m = n
      · rw [if_pos h] at ih ⊢
        have hpn : ¬ p.1 = n := by rw [← h]; exact hp
        simp [getAll, List.filter_cons, hpn] at ih ⊢
        exact ih
      · rw [if_neg h] at ih ⊢
        by_cases hpn : p.1 = n
        · simp [getAll, List.filter_cons, hpn] at ih ⊢
          exact ih
        · simp [getAll, List.filter_cons, hpn] at ih ⊢
          exact ih

theorem lastVal_foldl_init (hs : List (String × String)) (n : String) (o : Option String) :
    hs.foldl (fun a p => if p.1 = n then some p.2 else a) o
    = match lastVal hs n with | some v => some v | none => o := by
  induction hs generalizing o with
  | nil => rfl
  | cons p t ih =>
    show t.foldl _ (if p.1 = n then some p.2 else o) = _
    rw [ih]
    have hl : lastVal (p :: t) n
        = t.foldl (fun a p => if p.1 = n then some p.2 else a)
            (if p.1 = n then some p.2 else none) := rfl
    rw [hl, ih]
    cases hlv : lastVal t n <;> by_cases h : p.1 = n <;> simp [h]

theorem getAll_foldl_insert (hs acc : List (String × String)) (n : String) :
    getAll (hs.foldl (fun a p => insertHeader a p.1 p.2) acc) n
    = (match lastVal hs n with | some v => [v] | none => getAll acc n) := by
  induction hs generalizing acc with
  | nil => rfl
  | cons p t ih =>
    show getAll (t.foldl _ (insertHeader acc p.1 p.2)) n = _
    rw [ih]
    have hl : lastVal (p :: t) n
        = t.foldl (fun a p => if p.1 = n then some p.2 else a)
            (if p.1 = n then some p.2 else none) := rfl
    rw [hl, lastVal_foldl_init]
    cases hlv : lastVal t n <;> by_cases h : p.1 = n <;>
      simp [h, getAll_insertHeader]

/-- Claim C6, counterexample: an inbound header whose name repeats is not
copied onto the outbound request unmodified — `insert_header` replaces the
previous value for the name, so only the last inbound value for `x-a`
survives onto the outbound request. -/
theorem c6_outbound_counterexample :
    ¬ (getAll (buildOutbound [("x-a", "1"), ("x-a", "2")]
          ⟨"http", some "h", "/", none⟩) "x-a" = ["1", "2"])
    ∧ getAll (buildOutbound [("x-a", "1"), ("x-a", "2")]
          ⟨"http", some "h", "/", none⟩) "x-a" = ["2"] := by
  decide

/-- Claim C6, amended: the outbound request carries, for each non-`host`
inbound header name, exactly the LAST inbound value for that name (and
nothing when the name is absent), and the `host` header is unconditionally
the resolved URL's host, overriding any copied value. -/
theorem c6_outbound_amended (reqHeaders : List (String × String)) (u : Url) (n : String)
    (hn : ¬ n = "host") :
    getAll (buildOutbound reqHeaders u) n
      = (match lastVal reqHeaders n with | some v => [v] | none => [])
    ∧ getAll (buildOutbound reqHeaders u) "host" = [u.host.getD ""] := by
  constructor
  · unfold buildOutbound
    rw [getAll_insertHeader, if_neg (fun h => hn h.symm), getAll_foldl_insert]
    cases lastVal reqHeaders n <;> rfl
  · unfold buildOutbound
    rw [getAll_insertHeader, if_pos rfl]

/-- Witness for C6's amended theorem: a repeated `x-a` collapses to its
last value and an inbound `host` is overridden by the URL's host. -/
theorem c6_outbound_amended_witness :
    getAll (buildOutbound [("x-a", "1"), ("x-a", "2"), ("host", "c")]
        ⟨"http", some "h", "/", none⟩) "x-a" = ["2"]
    ∧ getAll (buildOutbound [("x-a", "1"), ("x-a", "2"), ("host", "c")]
        ⟨"http", some "h", "/", none⟩) "host" = ["h"] :=
  c6_outbound_amended [("x-a", "1"), ("x-a", "2"), ("host", "c")]
    ⟨"http", some "h", "/", none⟩ "x-a" (by decide)

/-! ### Capture-path lemmas (miss path, src/db.rs) -/

theorem lastVal_cons (p : String × String) (t : List (String × String)) (n : String) :
    lastVal (p :: t) n
    = match lastVal t n with
      | some v => some v
      | none => if p.1 = n then some p.2 else none := by
  show t.foldl _ (if p.1 = n then some p.2 else none) = _
  rw [lastVal_foldl_init]

theorem lastVal_filter (q : String × String → Bool) (hs : List (String × String)) (n : String)
    (hq : ∀ p : String × String, p.1 = n → q p = true) :
    lastVal (hs.filter q) n = lastVal hs n := by
  induction hs with
  | nil => rfl
  | cons p t ih =>
    rw [List.filter_cons]
    by_cases h : q p
    · rw [if_pos h, lastVal_cons, ih, lastVal_cons]
    · rw [if_neg h, ih, lastVal_cons]
      have hpn : ¬ p.1 = n := fun hc => h (hq p hc)
      cases lastVal t n <;> simp [hpn]

theorem getAll_append (l1 l2 : List (String × String)) (n : String) :
    getAll (l1 ++ l2) n = getAll l1 n ++ getAll l2 n := by
  unfold getAll
  rw [List.filter_append, List.map_append]

theorem getAll_map_pair (k : String) (vs : List String) (n : String) :
    getAll (vs.map (fun v => (k, v))) n = if k = n then vs else [] := by
  induction vs with
  | nil => by_cases h : k = n <;> simp [getAll, h]
  | cons v t ih =>
    by_cases h : k = n
    · simp [getAll, h] at ih ⊢
      exact ih
    · simp [getAll, h]

theorem getAll_nil_of_not_mem (hs : List (String × String)) (n : String)
    (h : ¬ n ∈ hs.map (fun p => p.1)) : getAll hs n = [] := by
  induction hs with
  | nil => rfl
  | cons p t ih =>
    have h2 : ¬ n ∈ t.map (fun p => p.1) := fun hc => h (List.mem_cons_of_mem _ hc)
    have h1 : ¬ p.1 = n := fun hc => h (by rw [List.map_cons, hc]; exact List.mem_cons_self _ _)
    unfold getAll
    rw [List.filter_cons, if_neg (by simp [h1])]
    exact ih h2

theorem getAll_expand_keys (l : List String) (g : String → List String) (n : String)
    (hl : l.Nodup) :
    getAll ((l.map (fun k => (k, g k))).flatMap (fun p => p.2.map (fun v => (p.1, v)))) n
    = if n ∈ l then g n else [] := by
  induction l with
  | nil => simp [getAll]
  | cons k t ih =>
    rw [List.map_cons, List.flatMap_cons, getAll_append, getAll_map_pair,
      ih (List.Nodup.of_cons hl)]
    by_cases h : k = n
    · subst h
      have hnt : ¬ k ∈ t := (List.nodup_cons.mp hl).1
      rw [if_pos rfl, if_neg hnt, if_pos (List.mem_cons_self k t), List.append_nil]
    · rw [if_neg h, List.nil_append]
      by_cases hm : n ∈ t
      · rw [if_pos hm, if_pos (List.mem_cons_of_mem k hm)]
      · have hnk : ¬ n ∈ k :: t := by
          intro hc
          rcases List.mem_cons.mp hc with hc | hc
          · exact h hc.symm
          · exact hm hc
        rw [if_neg hm, if_neg hnk]

theorem dedupKeys_nodup (l : List String) : (dedupKeys l).Nodup := by
  induction l with
  | nil => exact List.nodup_nil
  | cons k t ih =>
    unfold dedupKeys
    by_cases h : k ∈ dedupKeys t
    · simpa [h] using ih
    · simpa [h] using List.nodup_cons.mpr ⟨h, ih⟩

theorem mem_dedupKeys (l : List String) (n : String) : n ∈ dedupKeys l ↔ n ∈ l := by
  induction l with
  | nil => exact Iff.rfl
  | cons k t ih =>
    unfold dedupKeys
    by_cases h : k ∈ dedupKeys t
    · simp only [if_pos h, List.mem_cons, ih]
      constructor
      · exact Or.inr
      · rintro (hc | hc)
        · subst hc
          exact ih.mp h
        · exact hc
    · simp only [if_neg h, List.mem_cons, ih]

theorem getAll_expand_fromMap (hs : List (String × String)) (n : String) :
    getAll ((HttpHeaders.fromMap hs).flatMap (fun p => p.2.map (fun v => (p.1, v)))) n
    = getAll hs n := by
  unfold HttpHeaders.fromMap
  rw [getAll_expand_keys _ _ _ (dedupKeys_nodup _)]
  by_cases h : n ∈ dedupKeys (hs.map (fun p => p.1))
  · rw [if_pos h]
  · rw [if_neg h, getAll_nil_of_not_mem hs n ((mem_dedupKeys _ _).not.mp h)]

theorem lookup_map_self (l : List String) (g : String → List String) (n : String)
    (hn : n ∈ l) :
    List.lookup n (l.map (fun k => (k, g k))) = some (g n) := by
  induction l with
  | nil => cases hn
  | cons k t ih =>
    rw [List.map_cons]
    by_cases h : n = k
    · subst h
      simp [List.lookup]
    · rw [List.mem_cons] at hn
      have hnt : n ∈ t := hn.resolve_left h
      have hbeq : (n == k) = false := beq_eq_false_iff_ne.mpr h
      rw [List.lookup, hbeq]
      exact ih hnt

/-- Claim C10: when an origin response is captured on a miss, each header
name surviving the connection/content-encoding drop ends up with exactly
one value — the last value the origin sent for that name — in both the
stored entry and the response served to the client, because each
`insert_header` during capture replaces the previous value for the name. -/
theorem c10_capture_last_value (s : CacheSettings) (store : List Row)
    (method : String) (reqHeaders : List (String × String)) (u : Url)
    (origin : OriginResponse) (now : Int) (n v : String)
    (hv : lastVal origin.headers n = some v)
    (hn1 : ¬ n = "connection") (hn2 : ¬ n = "content-encoding")
    (hmiss : lookupRow s store method u.toString now = none) :
    List.lookup n (missEntry method u origin now).headers = some [v]
    ∧ getAll (missEntry method u origin now).render.headers n = [v]
    ∧ execute s DbFates.allOk store method reqHeaders u origin now
        = ExecResult.success (missEntry method u origin now).render
            (upsertRow store ((missEntry method u origin now).toRow now))
            (some (buildOutbound reqHeaders u)) := by
  have hkeep : ∀ p : String × String, p.1 = n → (fun p : String × String => keepHeader p.1) p = true := by
    intro p hp
    show keepHeader p.1 = true
    rw [hp]
    unfold keepHeader
    simp [hn1, hn2]
  have hlf : lastVal (origin.headers.filter (fun p => keepHeader p.1)) n = some v := by
    rw [lastVal_filter _ _ _ hkeep]
    exact hv
  have hga : getAll (captureHeaders origin.headers) n = [v] := by
    unfold captureHeaders
    rw [getAll_foldl_insert, hlf]
  have hmem : n ∈ (captureHeaders origin.headers).map (fun p => p.1) := by
    by_contra hc
    rw [getAll_nil_of_not_mem _ _ hc] at hga
    cases hga
  refine ⟨?_, ?_, ?_⟩
  · show List.lookup n (HttpHeaders.fromMap (captureHeaders origin.headers)) = some [v]
    unfold HttpHeaders.fromMap
    rw [lookup_map_self _ _ _ ((mem_dedupKeys _ _).mpr hmem), hga]
  · show getAll ((HttpHeaders.fromMap (captureHeaders origin.headers)).flatMap
        (fun p => p.2.map (fun v => (p.1, v)))) n = [v]
    rw [getAll_expand_fromMap, hga]
  · unfold execute
    rw [hmiss]
    simp [DbFates.allOk]

/-- Witness for C10: a repeated `x-a` origin header collapses to its last
value `2` in the stored entry, the rendered response, and the full
`execute` miss path. -/
theorem c10_capture_last_value_witness :
    List.lookup "x-a" (missEntry "GET" ⟨"http", some "h", "/", none⟩
        ⟨200, [("x-a", "1"), ("x-a", "2"), ("connection", "close")], [104]⟩ 5).headers
      = some ["2"]
    ∧ getAll (missEntry "GET" ⟨"http", some "h", "/", none⟩
        ⟨200, [("x-a", "1"), ("x-a", "2"), ("connection", "close")], [104]⟩ 5).render.headers
        "x-a" = ["2"]
    ∧ execute ⟨true, false, 0⟩ DbFates.allOk [] "GET" []
        ⟨"http", some "h", "/", none⟩
        ⟨200, [("x-a", "1"), ("x-a", "2"), ("connection", "close")], [104]⟩ 5
      = ExecResult.success
          (missEntry "GET" ⟨"http", some "h", "/", none⟩
            ⟨200, [("x-a", "1"), ("x-a", "2"), ("connection", "close")], [104]⟩ 5).render
          (upsertRow []
            ((missEntry "GET" ⟨"http", some "h", "/", none⟩
              ⟨200, [("x-a", "1"), ("x-a", "2"), ("connection", "close")], [104]⟩ 5).toRow 5))
          (some (buildOutbound [] ⟨"http", some "h", "/", none⟩)) :=
  c10_capture_last_value ⟨true, false, 0⟩ [] "GET" [] ⟨"http", some "h", "/", none⟩
    ⟨200, [("x-a", "1"), ("x-a", "2"), ("connection", "close")], [104]⟩ 5 "x-a" "2"
    (by decide) (by decide) (by decide) (by decide)
